import Mathlib

set_option allowUnsafeReducibility true
attribute [semireducible] Rat.mul Rat.inv Rat.add Rat.sub

/-!
A verification development for a small Gaussian-elimination linear-system
solver.  Scalars are modelled as exact rationals (the specification's Scalar
is an exact decimal number), vectors as lists of rationals, and the solver's
loops as fuel-based structural recursions whose fuel equals the loop trip
count at every call site.
-/

/-- The near-zero tolerance `1e-10` used by `MyDecimal.is_near_zero`. -/
def nearZeroEps : ℚ := 1 / 10 ^ 10

/-- Translation of `MyDecimal.is_near_zero(eps=1e-10)`: `abs(self) < eps`. -/
def is_near_zero (x : ℚ) : Bool := decide (|x| < nearZeroEps)

/-- Modelled from the spec: the missing `vector.py` `Vector.times_scalar`
(coordinatewise scalar multiple). -/
def times_scalar (v : List ℚ) (c : ℚ) : List ℚ := v.map (fun x => c * x)

/-- Modelled from the spec: the missing `vector.py` `Vector.plus`
(coordinatewise addition). -/
def vplus (v w : List ℚ) : List ℚ := List.zipWith (· + ·) v w

/-- Modelled from the spec and from `plane.py` (its general-dimension
analogue `hyperplane.py` is not in the sources): a hyperplane
`normal_vector · x = constant_term`. -/
structure Hyperplane where
  normal_vector : List ℚ
  constant_term : ℚ
deriving DecidableEq, Repr

instance : Inhabited Hyperplane := ⟨⟨[], 0⟩⟩

/-- The message of the `NoNonzeroElement` condition. -/
def NO_NONZERO_ELTS_FOUND_MSG : String := "No nonzero elements found"

/-- Translation of `Plane.first_nonzero_index` (`plane.py`, lines 102-107):
the index of the first non-near-zero entry, or the `NoNonzeroElement`
failure when every entry is near-zero. -/
def first_nonzero_index : List ℚ → Except String ℕ
  | [] => .error NO_NONZERO_ELTS_FOUND_MSG
  | x :: rest =>
    if is_near_zero x then (first_nonzero_index rest).map (· + 1) else .ok 0

/-- Translation of `Plane.set_basepoint`: all-zero coordinates except
`constant_term / coefficient` at the first non-near-zero index; `none`
when the `NoNonzeroElement` condition is caught. -/
def set_basepoint (normal : List ℚ) (c : ℚ) : Option (List ℚ) :=
  match first_nonzero_index normal with
  | .ok k => some ((List.replicate normal.length (0 : ℚ)).set k (c / normal.getD k 0))
  | .error _ => none

/-- Translation of `LinearSystem` (`linsys.py`): an ordered list of
hyperplanes together with the common dimension. -/
structure LinearSystem where
  planes : List Hyperplane
  dimension : ℕ
deriving DecidableEq, Repr

/-- The constructor invariant of `LinearSystem.__init__`: every plane's
normal vector lives in the system's dimension. -/
def wellFormed (s : LinearSystem) : Bool :=
  s.planes.all (fun p => p.normal_vector.length == s.dimension)

/-- Row lookup `self[i]`. -/
def getRow (s : LinearSystem) (i : ℕ) : Hyperplane := s.planes.getD i default

/-- Coefficient lookup `self[i][j]` (the `j`-th normal coordinate of row `i`). -/
def coeff (s : LinearSystem) (i j : ℕ) : ℚ := (getRow s i).normal_vector.getD j 0

/-- Translation of `LinearSystem.swap_rows`. -/
def swap_rows (s : LinearSystem) (row1 row2 : ℕ) : LinearSystem :=
  { s with planes := (s.planes.set row1 (getRow s row2)).set row2 (getRow s row1) }

/-- Translation of `LinearSystem.multiply_coefficient_and_row`. -/
def multiply_coefficient_and_row (s : LinearSystem) (coefficient : ℚ) (row : ℕ) :
    LinearSystem :=
  let n := (getRow s row).normal_vector
  let k := (getRow s row).constant_term
  { s with planes := s.planes.set row ⟨times_scalar n coefficient, k * coefficient⟩ }

/-- Translation of `LinearSystem.add_multiple_times_row_to_row`. -/
def add_multiple_times_row_to_row (s : LinearSystem) (coefficient : ℚ)
    (from_here to_here : ℕ) : LinearSystem :=
  let n1 := (getRow s from_here).normal_vector
  let n2 := (getRow s to_here).normal_vector
  let k1 := (getRow s from_here).constant_term
  let k2 := (getRow s to_here).constant_term
  let newRow : Hyperplane := ⟨vplus (times_scalar n1 coefficient) n2, k1 * coefficient + k2⟩
  { s with planes := s.planes.set to_here newRow }

/-- The search loop of `LinearSystem.swap_with_row_below`: `k` is the row
being examined and the fuel equals `len(self) - k` at every call. -/
def swap_search (s : LinearSystem) (row col k : ℕ) : ℕ → LinearSystem × Bool
  | 0 => (s, false)
  | fuel + 1 =>
    if is_near_zero (coeff s k col) then swap_search s row col (k + 1) fuel
    else (swap_rows s row k, true)

/-- Translation of `LinearSystem.swap_with_row_below`: find the first row
strictly below `row` with a non-near-zero entry in `col` and swap it up. -/
def swap_with_row_below (s : LinearSystem) (row col : ℕ) : LinearSystem × Bool :=
  swap_search s row col (row + 1) (s.planes.length - (row + 1))

/-- The elimination loop of `LinearSystem.clear_coefficients_below`: row `k`
receives `alpha = -gamma / beta` times `row`; fuel equals `len(self) - k`. -/
def clear_below_go (s : LinearSystem) (row col : ℕ) (beta : ℚ) (k : ℕ) :
    ℕ → LinearSystem
  | 0 => s
  | fuel + 1 =>
    let gamma := coeff s k col
    let alpha := -gamma / beta
    clear_below_go (add_multiple_times_row_to_row s alpha row k) row col beta
      (k + 1) fuel

/-- Translation of `LinearSystem.clear_coefficients_below` (`beta` is read
once, before the loop). -/
def clear_coefficients_below (s : LinearSystem) (row col : ℕ) : LinearSystem :=
  clear_below_go s row col (coeff s row col) (row + 1) (s.planes.length - (row + 1))

/-- The `while j < num_variables` loop of `compute_triangular_form` for one
row `i`; the fuel equals `dim - j` at every call.  Returns the updated
system and the new column cursor. -/
def tf_while (s : LinearSystem) (i j : ℕ) : ℕ → LinearSystem × ℕ
  | 0 => (s, j)
  | fuel + 1 =>
    if is_near_zero (coeff s i j) then
      match swap_with_row_below s i j with
      | (s', true) => (clear_coefficients_below s' i j, j + 1)
      | (s', false) => tf_while s' i (j + 1) fuel
    else (clear_coefficients_below s i j, j + 1)

/-- The `for i in range(num_equations)` loop of `compute_triangular_form`;
the fuel equals `num_equations - i`. -/
def tf_rows (dim : ℕ) (s : LinearSystem) (i j : ℕ) : ℕ → LinearSystem
  | 0 => s
  | fuel + 1 =>
    let r := tf_while s i j (dim - j)
    tf_rows dim r.1 (i + 1) r.2 fuel

/-- Translation of `LinearSystem.compute_triangular_form`: a single forward
pass with one shared column cursor, starting from a fresh copy of the
receiver. -/
def compute_triangular_form (s : LinearSystem) : LinearSystem :=
  tf_rows s.dimension s 0 0 s.planes.length

/-- Translation of `LinearSystem.indices_of_first_nonzero_terms_in_each_row`:
pivot variable indices, `-1` when the `NoNonzeroElement` condition is caught. -/
def indices_of_first_nonzero_terms_in_each_row (s : LinearSystem) : List ℤ :=
  s.planes.map (fun p =>
    match first_nonzero_index p.normal_vector with
    | .ok k => (k : ℤ)
    | .error _ => -1)

/-- The same computation with the caller's exception handling made explicit:
only an error whose message equals `NO_NONZERO_ELTS_FOUND_MSG` is converted
to `-1`; any other error propagates. -/
def indices_scan : List Hyperplane → Except String (List ℤ)
  | [] => .ok []
  | p :: rest =>
    match first_nonzero_index p.normal_vector with
    | .ok k =>
      match indices_scan rest with
      | .ok t => .ok ((k : ℤ) :: t)
      | .error e => .error e
    | .error e =>
      if e = NO_NONZERO_ELTS_FOUND_MSG then
        match indices_scan rest with
        | .ok t => .ok ((-1) :: t)
        | .error e' => .error e'
      else .error e

/-- The per-row pivot computation with its exception handling explicit. -/
def indices_exc (s : LinearSystem) : Except String (List ℤ) :=
  indices_scan s.planes

/-- Translation of `LinearSystem.scale_row_to_make_coefficient_equal_one`. -/
def scale_row_to_make_coefficient_equal_one (s : LinearSystem) (row col : ℕ) :
    LinearSystem :=
  multiply_coefficient_and_row s (1 / coeff s row col) row

/-- The loop of `LinearSystem.clear_coefficients_above`: rows `row-1` down
to `0` each receive `alpha = -(their entry in col)` times `row`. -/
def clear_above_go (s : LinearSystem) (row col : ℕ) : ℕ → LinearSystem
  | 0 => s
  | k + 1 =>
    let alpha := -(coeff s k col)
    clear_above_go (add_multiple_times_row_to_row s alpha row k) row col k

/-- Translation of `LinearSystem.clear_coefficients_above`. -/
def clear_coefficients_above (s : LinearSystem) (row col : ℕ) : LinearSystem :=
  clear_above_go s row col row

/-- The `for i in range(num_equations)[::-1]` loop of `compute_rref`; the
argument counts down so that row `i` is processed when the counter is `i+1`. -/
def rref_go (pivots : List ℤ) (s : LinearSystem) : ℕ → LinearSystem
  | 0 => s
  | i + 1 =>
    let j := pivots.getD i (-1)
    if j < 0 then rref_go pivots s i
    else
      rref_go pivots
        (clear_coefficients_above
          (scale_row_to_make_coefficient_equal_one s i j.toNat) i j.toNat) i

/-- Translation of `LinearSystem.compute_rref`: triangularize, then scale
each pivot row to a unit pivot and clear the pivot's column above it,
working from the last row upward; the pivot indices are computed once, on
the triangular form. -/
def compute_rref (s : LinearSystem) : LinearSystem :=
  let tf := compute_triangular_form s
  rref_go (indices_of_first_nonzero_terms_in_each_row tf) tf tf.planes.length

/-- The messages of the two classification outcomes. -/
def NO_SOLUTIONS_MSG : String := "No solutions"

/-- The infinitely-many-solutions message. -/
def INF_SOLUTIONS_MSG : String := "Infinitely many solutions"

/-- The row scan of `raise_exception_if_contradictory_equation`: the first
row with an all-near-zero normal vector and a non-near-zero constant term
raises `NO_SOLUTIONS_MSG`; a `NoNonzeroElement` failure with any other
message would be re-raised. -/
def contradictory_scan : List Hyperplane → Except String Unit
  | [] => .ok ()
  | p :: rest =>
    match first_nonzero_index p.normal_vector with
    | .ok _ => contradictory_scan rest
    | .error e =>
      if e = "No nonzero elements found" then
        if is_near_zero p.constant_term then contradictory_scan rest
        else .error NO_SOLUTIONS_MSG
      else .error e

/-- Translation of `LinearSystem.raise_exception_if_contradictory_equation`. -/
def raise_exception_if_contradictory_equation (s : LinearSystem) :
    Except String Unit :=
  contradictory_scan s.planes

/-- Translation of `LinearSystem.raise_exception_if_too_few_pivots`: the
per-row count of pivots (not the distinct-column count) is compared with
the dimension. -/
def raise_exception_if_too_few_pivots (s : LinearSystem) : Except String Unit :=
  let pivot_indices := indices_of_first_nonzero_terms_in_each_row s
  let num_pivots := (pivot_indices.map (fun idx => if 0 ≤ idx then 1 else 0)).sum
  if num_pivots < s.dimension then .error INF_SOLUTIONS_MSG else .ok ()

/-- The free-variable indices of
`extract_direction_vectors_for_parametrization`: the Python set difference
`set(range(num_variables)) - set(pivot_indices)`, iterated in ascending
order (CPython iterates a set of small nonnegative integers in ascending
order). -/
def free_variable_indices (s : LinearSystem) : List ℕ :=
  let pivot_indices := indices_of_first_nonzero_terms_in_each_row s
  (List.range s.dimension).filter (fun v => !(pivot_indices.contains (v : ℤ)))

/-- The inner loop shared by the two extraction routines: walk the rows in
order, stop at the first row without a pivot, and store `value p` of each
pivot row at its pivot column. -/
def store_at_pivots (value : Hyperplane → ℚ) :
    List (Hyperplane × ℤ) → List ℚ → List ℚ
  | [], coords => coords
  | (p, pv) :: rest, coords =>
    if pv < 0 then coords
    else store_at_pivots value rest (coords.set pv.toNat (value p))

/-- Translation of `LinearSystem.extract_direction_vectors_for_parametrization`. -/
def extract_direction_vectors_for_parametrization (s : LinearSystem) :
    List (List ℚ) :=
  let pivot_indices := indices_of_first_nonzero_terms_in_each_row s
  (free_variable_indices s).map (fun free_var =>
    store_at_pivots (fun p => -(p.normal_vector.getD free_var 0))
      (s.planes.zip pivot_indices)
      ((List.replicate s.dimension (0 : ℚ)).set free_var 1))

/-- Translation of `LinearSystem.extract_basepoint_for_parametrization`. -/
def extract_basepoint_for_parametrization (s : LinearSystem) : List ℚ :=
  let pivot_indices := indices_of_first_nonzero_terms_in_each_row s
  store_at_pivots (fun p => p.constant_term) (s.planes.zip pivot_indices)
    (List.replicate s.dimension (0 : ℚ))

/-- Translation of the `Parametrization` output type. -/
structure Parametrization where
  basepoint : List ℚ
  direction_vectors : List (List ℚ)
deriving DecidableEq, Repr

/-- Translation of `LinearSystem.do_gaussian_elminitation_and_parametrize_solution`. -/
def do_gaussian_elminitation_and_parametrize_solution (s : LinearSystem) :
    Except String Parametrization :=
  let rref := compute_rref s
  match raise_exception_if_contradictory_equation rref with
  | .error e => .error e
  | .ok _ =>
    let dir_vectors := extract_direction_vectors_for_parametrization rref
    let basepoint := extract_basepoint_for_parametrization rref
    .ok ⟨basepoint, dir_vectors⟩

/-- Translation of `LinearSystem.do_gaussian_elminitation_and_extract_solution`
(present in the source but not called by `compute_solution`): the solution
coordinates are read off row-indexed, `rref.planes[i].constant_term`. -/
def do_gaussian_elminitation_and_extract_solution (s : LinearSystem) :
    Except String (List ℚ) :=
  let rref := compute_rref s
  match raise_exception_if_contradictory_equation rref with
  | .error e => .error e
  | .ok _ =>
    match raise_exception_if_too_few_pivots rref with
    | .error e => .error e
    | .ok _ =>
      .ok ((List.range rref.dimension).map
        (fun i => (rref.planes.getD i default).constant_term))

/-- The possible results of the top-level solve routine: the descriptive
"No solutions" value, a unique solution vector (the return shape of the
uncalled extraction path), or a parametrization. -/
inductive SolveResult where
  | noSolutions : SolveResult
  | solutionVec : List ℚ → SolveResult
  | param : Parametrization → SolveResult
deriving DecidableEq, Repr

/-- Whether a solve outcome is a plain solution vector. -/
def resultIsVector : Except String SolveResult → Bool
  | .ok (.solutionVec _) => true
  | _ => false

/-- Translation of `LinearSystem.compute_solution`: it runs the
parametrization path (the extraction path is commented out in the source),
converts a `NO_SOLUTIONS_MSG` failure into the descriptive value, and
re-raises anything else. -/
def compute_solution (s : LinearSystem) : Except String SolveResult :=
  match do_gaussian_elminitation_and_parametrize_solution s with
  | .ok p => .ok (.param p)
  | .error e => if e = NO_SOLUTIONS_MSG then .ok .noSolutions else .error e

/-- The receiver/result pair of a `compute_triangular_form` method call:
the receiver is deep-copied and only the copy is mutated. -/
def compute_triangular_form_call (self : LinearSystem) :
    LinearSystem × LinearSystem :=
  let system := self
  (self, tf_rows system.dimension system 0 0 system.planes.length)

/-- The receiver/result pair of a `compute_rref` method call: the receiver
is only read (the deep copy happens inside `compute_triangular_form`). -/
def compute_rref_call (self : LinearSystem) : LinearSystem × LinearSystem :=
  (self, compute_rref self)

/-! ## Basic preservation lemmas -/

theorem dimension_swap_rows (s : LinearSystem) (r1 r2 : ℕ) :
    (swap_rows s r1 r2).dimension = s.dimension := rfl

theorem dimension_multiply (s : LinearSystem) (c : ℚ) (r : ℕ) :
    (multiply_coefficient_and_row s c r).dimension = s.dimension := rfl

theorem dimension_add_multiple (s : LinearSystem) (c : ℚ) (f t : ℕ) :
    (add_multiple_times_row_to_row s c f t).dimension = s.dimension := rfl

theorem length_swap_rows (s : LinearSystem) (r1 r2 : ℕ) :
    (swap_rows s r1 r2).planes.length = s.planes.length := by
  simp [swap_rows]

theorem length_multiply (s : LinearSystem) (c : ℚ) (r : ℕ) :
    (multiply_coefficient_and_row s c r).planes.length = s.planes.length := by
  simp [multiply_coefficient_and_row]

theorem length_add_multiple (s : LinearSystem) (c : ℚ) (f t : ℕ) :
    (add_multiple_times_row_to_row s c f t).planes.length = s.planes.length := by
  simp [add_multiple_times_row_to_row]

theorem swap_search_dimension (row col : ℕ) :
    ∀ (fuel k : ℕ) (s : LinearSystem),
      (swap_search s row col k fuel).1.dimension = s.dimension := by
  intro fuel
  induction fuel with
  | zero => intro k s; rfl
  | succ f ih =>
    intro k s
    simp only [swap_search]
    split
    · exact ih (k + 1) s
    · rfl

theorem swap_search_length (row col : ℕ) :
    ∀ (fuel k : ℕ) (s : LinearSystem),
      (swap_search s row col k fuel).1.planes.length = s.planes.length := by
  intro fuel
  induction fuel with
  | zero => intro k s; rfl
  | succ f ih =>
    intro k s
    simp only [swap_search]
    split
    · exact ih (k + 1) s
    · exact length_swap_rows s row k

theorem clear_below_go_dimension (row col : ℕ) (beta : ℚ) :
    ∀ (fuel k : ℕ) (s : LinearSystem),
      (clear_below_go s row col beta k fuel).dimension = s.dimension := by
  intro fuel
  induction fuel with
  | zero => intro k s; rfl
  | succ f ih => intro k s; exact ih (k + 1) _

theorem clear_below_go_length (row col : ℕ) (beta : ℚ) :
    ∀ (fuel k : ℕ) (s : LinearSystem),
      (clear_below_go s row col beta k fuel).planes.length = s.planes.length := by
  intro fuel
  induction fuel with
  | zero => intro k s; rfl
  | succ f ih =>
    intro k s
    calc (clear_below_go (add_multiple_times_row_to_row s (-(coeff s k col)/beta) row k)
            row col beta (k+1) f).planes.length
        = (add_multiple_times_row_to_row s (-(coeff s k col)/beta) row k).planes.length :=
          ih (k + 1) _
      _ = s.planes.length := length_add_multiple _ _ _ _

theorem clear_coefficients_below_dimension (s : LinearSystem) (row col : ℕ) :
    (clear_coefficients_below s row col).dimension = s.dimension :=
  clear_below_go_dimension row col _ _ _ s

theorem clear_coefficients_below_length (s : LinearSystem) (row col : ℕ) :
    (clear_coefficients_below s row col).planes.length = s.planes.length :=
  clear_below_go_length row col _ _ _ s

theorem tf_while_dimension (i : ℕ) :
    ∀ (fuel j : ℕ) (s : LinearSystem),
      (tf_while s i j fuel).1.dimension = s.dimension := by
  intro fuel
  induction fuel with
  | zero => intro j s; rfl
  | succ f ih =>
    intro j s
    simp only [tf_while]
    split
    · split
      next heq =>
        rw [clear_coefficients_below_dimension]
        have := swap_search_dimension i j (s.planes.length - (i+1)) (i+1) s
        rw [show (swap_with_row_below s i j) =
          swap_search s i j (i+1) (s.planes.length - (i+1)) from rfl] at heq
        rw [heq] at this
        exact this
      next heq =>
        have := swap_search_dimension i j (s.planes.length - (i+1)) (i+1) s
        rw [show (swap_with_row_below s i j) =
          swap_search s i j (i+1) (s.planes.length - (i+1)) from rfl] at heq
        rw [heq] at this
        rw [ih (j+1)]
        exact this
    · exact clear_coefficients_below_dimension s i j

theorem tf_while_length (i : ℕ) :
    ∀ (fuel j : ℕ) (s : LinearSystem),
      (tf_while s i j fuel).1.planes.length = s.planes.length := by
  intro fuel
  induction fuel with
  | zero => intro j s; rfl
  | succ f ih =>
    intro j s
    simp only [tf_while]
    split
    · split
      next heq =>
        rw [clear_coefficients_below_length]
        have := swap_search_length i j (s.planes.length - (i+1)) (i+1) s
        rw [show (swap_with_row_below s i j) =
          swap_search s i j (i+1) (s.planes.length - (i+1)) from rfl] at heq
        rw [heq] at this
        exact this
      next heq =>
        have := swap_search_length i j (s.planes.length - (i+1)) (i+1) s
        rw [show (swap_with_row_below s i j) =
          swap_search s i j (i+1) (s.planes.length - (i+1)) from rfl] at heq
        rw [heq] at this
        rw [ih (j+1)]
        exact this
    · exact clear_coefficients_below_length s i j

theorem tf_rows_dimension (dim : ℕ) :
    ∀ (fuel i j : ℕ) (s : LinearSystem),
      (tf_rows dim s i j fuel).dimension = s.dimension := by
  intro fuel
  induction fuel with
  | zero => intro i j s; rfl
  | succ f ih =>
    intro i j s
    simp only [tf_rows]
    rw [ih, tf_while_dimension]

theorem tf_rows_length (dim : ℕ) :
    ∀ (fuel i j : ℕ) (s : LinearSystem),
      (tf_rows dim s i j fuel).planes.length = s.planes.length := by
  intro fuel
  induction fuel with
  | zero => intro i j s; rfl
  | succ f ih =>
    intro i j s
    simp only [tf_rows]
    rw [ih, tf_while_length]

theorem compute_triangular_form_dimension (s : LinearSystem) :
    (compute_triangular_form s).dimension = s.dimension :=
  tf_rows_dimension _ _ _ _ s

theorem compute_triangular_form_length (s : LinearSystem) :
    (compute_triangular_form s).planes.length = s.planes.length :=
  tf_rows_length _ _ _ _ s

theorem clear_above_go_dimension (row col : ℕ) :
    ∀ (k : ℕ) (s : LinearSystem),
      (clear_above_go s row col k).dimension = s.dimension := by
  intro k
  induction k with
  | zero => intro s; rfl
  | succ n ih => intro s; exact ih _

theorem clear_above_go_length (row col : ℕ) :
    ∀ (k : ℕ) (s : LinearSystem),
      (clear_above_go s row col k).planes.length = s.planes.length := by
  intro k
  induction k with
  | zero => intro s; rfl
  | succ n ih =>
    intro s
    calc (clear_above_go (add_multiple_times_row_to_row s (-(coeff s n col)) row n)
            row col n).planes.length
        = (add_multiple_times_row_to_row s (-(coeff s n col)) row n).planes.length := ih _
      _ = s.planes.length := length_add_multiple _ _ _ _

theorem clear_coefficients_above_dimension (s : LinearSystem) (row col : ℕ) :
    (clear_coefficients_above s row col).dimension = s.dimension :=
  clear_above_go_dimension row col row s

theorem clear_coefficients_above_length (s : LinearSystem) (row col : ℕ) :
    (clear_coefficients_above s row col).planes.length = s.planes.length :=
  clear_above_go_length row col row s

theorem rref_go_dimension (pivots : List ℤ) :
    ∀ (cnt : ℕ) (s : LinearSystem),
      (rref_go pivots s cnt).dimension = s.dimension := by
  intro cnt
  induction cnt with
  | zero => intro s; rfl
  | succ i ih =>
    intro s
    simp only [rref_go]
    split
    · exact ih s
    · rw [ih, clear_coefficients_above_dimension]; rfl

theorem rref_go_length (pivots : List ℤ) :
    ∀ (cnt : ℕ) (s : LinearSystem),
      (rref_go pivots s cnt).planes.length = s.planes.length := by
  intro cnt
  induction cnt with
  | zero => intro s; rfl
  | succ i ih =>
    intro s
    simp only [rref_go]
    split
    · exact ih s
    · rw [ih, clear_coefficients_above_length]
      exact length_multiply _ _ _

theorem compute_rref_dimension (s : LinearSystem) :
    (compute_rref s).dimension = s.dimension := by
  unfold compute_rref
  rw [rref_go_dimension, compute_triangular_form_dimension]

theorem compute_rref_length (s : LinearSystem) :
    (compute_rref s).planes.length = s.planes.length := by
  unfold compute_rref
  rw [rref_go_length, compute_triangular_form_length]

/-! ## Row lookup lemmas -/

theorem list_set_getD_self {α : Type _} :
    ∀ (l : List α) (r : ℕ) (d : α), r < l.length → l.set r (l.getD r d) = l
  | [], r, d, h => by simp at h
  | a :: l, 0, d, _ => by simp [List.getD]
  | a :: l, r + 1, d, h => by
    simp only [List.set, List.getD, List.get?, List.getD_eq_getElem?_getD,
      List.getElem?_cons_succ, List.cons.injEq, true_and]
    exact list_set_getD_self l r d (by simpa using h)

theorem list_getD_set_self {α : Type _} (l : List α) (r : ℕ) (a d : α)
    (h : r < l.length) : (l.set r a).getD r d = a := by
  simp [List.getD_eq_getElem?_getD, List.getElem?_set_self h]

theorem list_getD_set_ne {α : Type _} (l : List α) (r n : ℕ) (a d : α)
    (h : r ≠ n) : (l.set r a).getD n d = l.getD n d := by
  simp [List.getD_eq_getElem?_getD, List.getElem?_set_ne h]

theorem getRow_multiply_self (s : LinearSystem) (c : ℚ) (r : ℕ)
    (h : r < s.planes.length) :
    getRow (multiply_coefficient_and_row s c r) r =
      ⟨times_scalar (getRow s r).normal_vector c, (getRow s r).constant_term * c⟩ := by
  unfold multiply_coefficient_and_row getRow
  exact list_getD_set_self _ _ _ _ h

/-! ## Claim theorems: C2 and C7 -/

/-- C2: `compute_triangular_form` and `compute_rref` return a new
`LinearSystem` and leave the receiver completely unchanged — after either
call the receiver's row sequence (each row's normal vector and constant
term) and its dimension are exactly what they were before the call.  The
method calls are modelled as receiver/result pairs: the Python methods
deep-copy the receiver and mutate only the copy. -/
theorem claim_C2 (s : LinearSystem) :
    ((compute_triangular_form_call s).1.planes.map
        (fun p => (p.normal_vector, p.constant_term)) =
      s.planes.map (fun p => (p.normal_vector, p.constant_term)) ∧
     (compute_triangular_form_call s).1.dimension = s.dimension) ∧
    ((compute_rref_call s).1.planes.map
        (fun p => (p.normal_vector, p.constant_term)) =
      s.planes.map (fun p => (p.normal_vector, p.constant_term)) ∧
     (compute_rref_call s).1.dimension = s.dimension) :=
  ⟨⟨rfl, rfl⟩, ⟨rfl, rfl⟩⟩

/-- The digit-count search of the `Decimal` model: smallest `m ≥ 1` with
`n < 10 ^ m` (at most `n` widening steps are ever needed). -/
def digits10_go (n : ℕ) : ℕ → ℕ → ℕ
  | m, 0 => m
  | m, fuel + 1 => if n < 10 ^ m then m else digits10_go n (m + 1) fuel

/-- Number of decimal digits of `n ≥ 1`. -/
def digits10 (n : ℕ) : ℕ := digits10_go n 1 n

/-- `ROUND_HALF_EVEN` division of naturals: `a / b` rounded to the nearest
integer, ties to the even neighbour (the default rounding of a `Decimal`
context). -/
def divRoundHalfEven (a b : ℕ) : ℕ :=
  let q := a / b
  let r := a % b
  if 2 * r < b then q
  else if b < 2 * r then q + 1
  else if q % 2 = 0 then q else q + 1

/-- The context precision `getcontext().prec = 30` set at linsys.py:7. -/
def decPrec : ℕ := 30

/-- `Decimal` rounding under the source's context: the exact value scaled
so that its significand has `decPrec` digits, rounded half to even.  Every
`Decimal` operation returns its exact result rounded this way. -/
def decRound (x : ℚ) : ℚ :=
  if x = 0 then 0
  else
    let p := x.num.natAbs
    let q := x.den
    let t0 : ℤ := (decPrec : ℤ) + (digits10 q : ℤ) - (digits10 p : ℤ)
    let t : ℤ :=
      if 10 ^ decPrec * (q * 10 ^ (-t0).toNat) ≤ p * 10 ^ t0.toNat then t0 - 1
      else t0
    let n := divRoundHalfEven (p * 10 ^ t.toNat) (q * 10 ^ (-t).toNat)
    (if x.num < 0 then -1 else 1) * (n : ℚ) * (10 : ℚ) ^ (-t)

/-- `Decimal` product under the source's context. -/
def decMul (x y : ℚ) : ℚ := decRound (x * y)

/-- `Decimal` quotient under the source's context; `1/k` at a call site is
computed this way before being passed as a coefficient. -/
def decDiv (x y : ℚ) : ℚ := decRound (x / y)

/-- Translation of `LinearSystem.multiply_coefficient_and_row` with the
constant-term product `k * coefficient` (linsys.py:74) computed as the
source computes it: a `Decimal` multiplication under `getcontext().prec =
30`.  The normal vector goes through `Vector.times_scalar` of the missing
`vector.py` and stays modelled from the spec as exact coordinatewise
multiplication. -/
def multiply_coefficient_and_row_dec (s : LinearSystem) (coefficient : ℚ)
    (row : ℕ) : LinearSystem :=
  let n := (getRow s row).normal_vector
  let k := (getRow s row).constant_term
  { s with planes :=
      s.planes.set row ⟨times_scalar n coefficient, decMul k coefficient⟩ }

/-- C7 (counterexample): under the source's `Decimal` arithmetic the round
trip is not exact.  For `k = 3` on the one-equation system `x = 1`, the
computed `1/k` is `0.333…3` (thirty threes) and the restored row is
`0.999…9 · x = 0.999…9`, not `x = 1`. -/
theorem claim_C7_counterexample :
    multiply_coefficient_and_row_dec
      (multiply_coefficient_and_row_dec ⟨[⟨[1], 1⟩], 1⟩ 3 0)
      (decDiv 1 3) 0 ≠ (⟨[⟨[1], 1⟩], 1⟩ : LinearSystem) := by
  decide

/-- C7 (amended): multiplying row `r` by a nonzero `k` and then by the
computed `1/k` restores the system exactly whenever the three `Decimal`
operations involved incur no rounding at precision 30 — the quotient `1/k`
and the two constant-term products are exact (for instance any `k = ±2^a
* 5^b * 10^c` of moderate size).  Without these hypotheses exact
restoration fails: `claim_C7_counterexample`. -/
theorem claim_C7_amended (s : LinearSystem) (k : ℚ) (r : ℕ) (hk : k ≠ 0)
    (hr : r < s.planes.length)
    (hdiv : decDiv 1 k = 1 / k)
    (hm1 : decMul (getRow s r).constant_term k =
      (getRow s r).constant_term * k)
    (hm2 : decMul ((getRow s r).constant_term * k) (1 / k) =
      (getRow s r).constant_term * k * (1 / k)) :
    multiply_coefficient_and_row_dec
      (multiply_coefficient_and_row_dec s k r) (decDiv 1 k) r = s := by
  rw [hdiv]
  have hnorm : times_scalar (times_scalar (getRow s r).normal_vector k) (1 / k)
      = (getRow s r).normal_vector := by
    unfold times_scalar
    rw [List.map_map]
    refine List.map_id'' (fun x => ?_) _
    simp only [Function.comp]
    field_simp
  have hconst : decMul (decMul (getRow s r).constant_term k) (1 / k)
      = (getRow s r).constant_term := by
    rw [hm1, hm2]
    field_simp
  have hgr : getRow (multiply_coefficient_and_row_dec s k r) r
      = ⟨times_scalar (getRow s r).normal_vector k,
          decMul (getRow s r).constant_term k⟩ := by
    unfold multiply_coefficient_and_row_dec getRow
    exact list_getD_set_self _ _ _ _ hr
  have hL : multiply_coefficient_and_row_dec
      (multiply_coefficient_and_row_dec s k r) (1 / k) r
      = LinearSystem.mk
          ((multiply_coefficient_and_row_dec s k r).planes.set r
            ⟨times_scalar
              (getRow (multiply_coefficient_and_row_dec s k r) r).normal_vector
              (1 / k),
             decMul
              (getRow (multiply_coefficient_and_row_dec s k r) r).constant_term
              (1 / k)⟩)
          s.dimension := rfl
  rw [hgr] at hL
  simp only [show (multiply_coefficient_and_row_dec s k r).planes
      = s.planes.set r ⟨times_scalar (getRow s r).normal_vector k,
          decMul (getRow s r).constant_term k⟩ from rfl, List.set_set] at hL
  rw [hL]
  show LinearSystem.mk (s.planes.set r
    ⟨times_scalar (times_scalar (getRow s r).normal_vector k) (1 / k),
     decMul (decMul (getRow s r).constant_term k) (1 / k)⟩) s.dimension = s
  rw [hnorm, hconst]
  show LinearSystem.mk (s.planes.set r (getRow s r)) s.dimension = s
  unfold getRow
  rw [list_set_getD_self s.planes r default hr]

/-- Witness for the amended C7 at a concrete system, row and a coefficient
(`k = 2`) whose reciprocal and products are exact decimals. -/
theorem claim_C7_amended_witness :
    (2 : ℚ) ≠ 0 ∧ (0 : ℕ) < (LinearSystem.mk [⟨[1, 2], 5⟩] 2).planes.length ∧
    decDiv 1 2 = 1 / 2 ∧
    decMul (getRow (LinearSystem.mk [⟨[1, 2], 5⟩] 2) 0).constant_term 2 =
      (getRow (LinearSystem.mk [⟨[1, 2], 5⟩] 2) 0).constant_term * 2 ∧
    decMul ((getRow (LinearSystem.mk [⟨[1, 2], 5⟩] 2) 0).constant_term * 2)
        (1 / 2) =
      (getRow (LinearSystem.mk [⟨[1, 2], 5⟩] 2) 0).constant_term * 2 *
        (1 / 2) ∧
    multiply_coefficient_and_row_dec
      (multiply_coefficient_and_row_dec (LinearSystem.mk [⟨[1, 2], 5⟩] 2) 2 0)
      (decDiv 1 2) 0 = LinearSystem.mk [⟨[1, 2], 5⟩] 2 :=
  ⟨by norm_num, by decide, by decide, by decide, by decide,
    claim_C7_amended (LinearSystem.mk [⟨[1, 2], 5⟩] 2) 2 0 (by norm_num)
      (by decide) (by decide) (by decide) (by decide)⟩

/-! ## Characterization of `first_nonzero_index` -/

theorem fni_error_msg :
    ∀ (l : List ℚ) (e : String), first_nonzero_index l = .error e →
      e = NO_NONZERO_ELTS_FOUND_MSG := by
  intro l
  induction l with
  | nil => intro e h; simpa [first_nonzero_index] using h.symm
  | cons x rest ih =>
    intro e h
    simp only [first_nonzero_index] at h
    split at h
    · cases hrest : first_nonzero_index rest with
      | ok k => rw [hrest] at h; simp [Except.map] at h
      | error e' =>
        rw [hrest] at h
        simp only [Except.map] at h
        cases h
        exact ih _ hrest
    · simp at h

theorem fni_all_near_zero :
    ∀ (l : List ℚ), l.all is_near_zero = true →
      first_nonzero_index l = .error NO_NONZERO_ELTS_FOUND_MSG := by
  intro l
  induction l with
  | nil => intro _; rfl
  | cons x rest ih =>
    intro h
    simp only [List.all_cons, Bool.and_eq_true] at h
    simp only [first_nonzero_index, h.1, if_true, ih h.2, Except.map]

theorem fni_error_all_near_zero :
    ∀ (l : List ℚ) (e : String), first_nonzero_index l = .error e →
      l.all is_near_zero = true := by
  intro l
  induction l with
  | nil => intro e _; rfl
  | cons x rest ih =>
    intro e h
    simp only [first_nonzero_index] at h
    split at h
    next hx =>
      cases hrest : first_nonzero_index rest with
      | ok k => rw [hrest] at h; simp [Except.map] at h
      | error e' =>
        simp only [List.all_cons, hx, Bool.true_and]
        exact ih e' hrest
    · simp at h

theorem fni_ok_lt :
    ∀ (l : List ℚ) (k : ℕ), first_nonzero_index l = .ok k → k < l.length := by
  intro l
  induction l with
  | nil => intro k h; simp [first_nonzero_index] at h
  | cons x rest ih =>
    intro k h
    simp only [first_nonzero_index] at h
    split at h
    · cases hrest : first_nonzero_index rest with
      | ok m =>
        rw [hrest] at h
        simp only [Except.map] at h
        cases h
        simpa using ih m hrest
      | error e' => rw [hrest] at h; simp [Except.map] at h
    · cases h; simp

theorem fni_ok_spec :
    ∀ (l : List ℚ) (k : ℕ), first_nonzero_index l = .ok k →
      (∀ c < k, is_near_zero (l.getD c 0) = true) ∧
      is_near_zero (l.getD k 0) = false := by
  intro l
  induction l with
  | nil => intro k h; simp [first_nonzero_index] at h
  | cons x rest ih =>
    intro k h
    simp only [first_nonzero_index] at h
    split at h
    next hx =>
      cases hrest : first_nonzero_index rest with
      | ok m =>
        rw [hrest] at h
        simp only [Except.map] at h
        cases h
        obtain ⟨h1, h2⟩ := ih m hrest
        constructor
        · intro c hc
          cases c with
          | zero => simpa using hx
          | succ c' =>
            rw [List.getD_cons_succ]
            exact h1 c' (by omega)
        · rw [List.getD_cons_succ]; exact h2
      | error e' => rw [hrest] at h; simp [Except.map] at h
    next hx =>
      cases h
      constructor
      · intro c hc; omega
      · simpa using hx

/-- Conversely, the first index whose entry is not near-zero is returned. -/
theorem fni_of_spec :
    ∀ (l : List ℚ) (k : ℕ), k < l.length →
      (∀ c < k, is_near_zero (l.getD c 0) = true) →
      is_near_zero (l.getD k 0) = false →
      first_nonzero_index l = .ok k := by
  intro l
  induction l with
  | nil => intro k h; simp at h
  | cons x rest ih =>
    intro k hk hbefore hat
    cases k with
    | zero =>
      rw [List.getD_cons_zero] at hat
      simp [first_nonzero_index, hat]
    | succ k' =>
      have hx : is_near_zero x = true := by
        simpa using hbefore 0 (Nat.succ_pos _)
      have := ih k' (by simpa using hk)
        (fun c hc => by
          have := hbefore (c + 1) (by omega)
          rwa [List.getD_cons_succ] at this)
        (by rwa [List.getD_cons_succ] at hat)
      simp [first_nonzero_index, hx, this, Except.map]

/-! ## Pivot indices and the contradiction check -/

theorem indices_scan_ok :
    ∀ ps : List Hyperplane,
      indices_scan ps = .ok (ps.map (fun p =>
        match first_nonzero_index p.normal_vector with
        | .ok k => (k : ℤ)
        | .error _ => -1)) := by
  intro ps
  induction ps with
  | nil => rfl
  | cons p rest ih =>
    cases hfni : first_nonzero_index p.normal_vector with
    | ok k => simp [indices_scan, hfni, ih]
    | error e =>
      have := fni_error_msg _ _ hfni
      subst this
      simp [indices_scan, hfni, ih]

theorem indices_exc_ok (s : LinearSystem) :
    indices_exc s = .ok (indices_of_first_nonzero_terms_in_each_row s) :=
  indices_scan_ok s.planes

theorem indices_getD (s : LinearSystem) (i : ℕ) (hi : i < s.planes.length) :
    (indices_of_first_nonzero_terms_in_each_row s).getD i 0 =
      match first_nonzero_index (s.planes.getD i default).normal_vector with
      | .ok k => (k : ℤ)
      | .error _ => -1 := by
  unfold indices_of_first_nonzero_terms_in_each_row
  rw [List.getD_eq_getElem?_getD, List.getElem?_map,
    List.getElem?_eq_getElem hi]
  simp [List.getD_eq_getElem?_getD, List.getElem?_eq_getElem hi]

/-- A row that witnesses unsolvability: no pivot, non-near-zero constant. -/
def contradictory_row (p : Hyperplane) : Bool :=
  match first_nonzero_index p.normal_vector with
  | .ok _ => false
  | .error _ => !(is_near_zero p.constant_term)

/-- Whether some row of the system is contradictory. -/
def has_contradictory_row (s : LinearSystem) : Bool :=
  s.planes.any contradictory_row

theorem contradictory_scan_error :
    ∀ ps : List Hyperplane, ps.any contradictory_row = true →
      contradictory_scan ps = .error NO_SOLUTIONS_MSG := by
  intro ps
  induction ps with
  | nil => intro h; simp at h
  | cons p rest ih =>
    intro h
    simp only [List.any_cons, Bool.or_eq_true] at h
    cases hfni : first_nonzero_index p.normal_vector with
    | ok k =>
      have hfalse : contradictory_row p = false := by
        simp [contradictory_row, hfni]
      simp only [contradictory_scan, hfni]
      apply ih
      rcases h with h | h
      · rw [hfalse] at h; cases h
      · exact h
    | error e =>
      have := fni_error_msg _ _ hfni
      subst this
      simp only [contradictory_scan, hfni]
      rw [if_pos (show NO_NONZERO_ELTS_FOUND_MSG = "No nonzero elements found" from rfl)]
      cases hnz : is_near_zero p.constant_term with
      | true =>
        have hfalse : contradictory_row p = false := by
          simp [contradictory_row, hfni, hnz]
        simp only [if_true]
        apply ih
        rcases h with h | h
        · rw [hfalse] at h; cases h
        · exact h
      | false => simp

theorem contradictory_scan_ok :
    ∀ ps : List Hyperplane, ps.any contradictory_row = false →
      contradictory_scan ps = .ok () := by
  intro ps
  induction ps with
  | nil => intro _; rfl
  | cons p rest ih =>
    intro h
    simp only [List.any_cons, Bool.or_eq_false_iff] at h
    cases hfni : first_nonzero_index p.normal_vector with
    | ok k => simp only [contradictory_scan, hfni]; exact ih h.2
    | error e =>
      have := fni_error_msg _ _ hfni
      subst this
      have hnz : is_near_zero p.constant_term = true := by
        have := h.1
        simp only [contradictory_row, hfni, Bool.not_eq_false'] at this
        exact this
      simp only [contradictory_scan, hfni]
      rw [if_pos (show NO_NONZERO_ELTS_FOUND_MSG = "No nonzero elements found" from rfl),
        hnz, if_pos rfl]
      exact ih h.2

/-! ## Claim theorems: C9 and C3 -/

/-- C9: on a vector whose every coordinate is near-zero — of any length,
including a single coordinate — `first_nonzero_index` fails with exactly the
`NoNonzeroElement` message; the internal callers catch precisely this
condition, yielding pivot index `-1` per row and an undefined basepoint,
and the pivot-index computation never lets the condition escape. -/
theorem claim_C9 (l : List ℚ) (c : ℚ) (h : l.all is_near_zero = true) :
    first_nonzero_index l = .error NO_NONZERO_ELTS_FOUND_MSG ∧
    set_basepoint l c = none ∧
    (∀ (s : LinearSystem) (i : ℕ), i < s.planes.length →
      (s.planes.getD i default).normal_vector = l →
      (indices_of_first_nonzero_terms_in_each_row s).getD i 0 = -1) ∧
    (∀ s : LinearSystem,
      indices_exc s = .ok (indices_of_first_nonzero_terms_in_each_row s)) := by
  have h1 := fni_all_near_zero l h
  refine ⟨h1, ?_, ?_, fun s => indices_exc_ok s⟩
  · simp [set_basepoint, h1]
  · intro s i hi hrow
    rw [indices_getD s i hi, hrow, h1]

/-- Witness for C9 on the one-coordinate vector `[9e-11]` and a system
containing it as a row. -/
theorem claim_C9_witness :
    ([(9 : ℚ) / 10 ^ 11].all is_near_zero = true) ∧
    first_nonzero_index [(9 : ℚ) / 10 ^ 11] =
      .error NO_NONZERO_ELTS_FOUND_MSG ∧
    set_basepoint [(9 : ℚ) / 10 ^ 11] 5 = none ∧
    (indices_of_first_nonzero_terms_in_each_row
      (LinearSystem.mk [⟨[(9 : ℚ) / 10 ^ 11], 5⟩] 1)).getD 0 0 = -1 := by
  have h := claim_C9 [(9 : ℚ) / 10 ^ 11] 5 (by decide)
  exact ⟨by decide, h.1, h.2.1,
    h.2.2.1 (LinearSystem.mk [⟨[(9 : ℚ) / 10 ^ 11], 5⟩] 1) 0 (by decide) rfl⟩

/-- C3: whenever the reduced form of a system contains a row with an
entirely near-zero normal vector and a non-near-zero constant term, the
top-level solve routine returns the descriptive "No solutions" value — an
`ok` result, not an escaping error — regardless of the other rows. -/
theorem claim_C3 (s : LinearSystem)
    (h : has_contradictory_row (compute_rref s) = true) :
    compute_solution s = .ok .noSolutions := by
  have hscan : raise_exception_if_contradictory_equation (compute_rref s) =
      .error NO_SOLUTIONS_MSG :=
    contradictory_scan_error _ h
  have hdg : do_gaussian_elminitation_and_parametrize_solution s =
      .error NO_SOLUTIONS_MSG := by
    simp only [do_gaussian_elminitation_and_parametrize_solution, hscan]
  simp [compute_solution, hdg]

/-- Witness for C3 on the spec's example `{x+y+z=1, x+y+z=2}`. -/
theorem claim_C3_witness :
    has_contradictory_row
      (compute_rref (LinearSystem.mk [⟨[1, 1, 1], 1⟩, ⟨[1, 1, 1], 2⟩] 3)) = true ∧
    compute_solution (LinearSystem.mk [⟨[1, 1, 1], 1⟩, ⟨[1, 1, 1], 2⟩] 3) =
      .ok .noSolutions :=
  ⟨by decide, claim_C3 _ (by decide)⟩

/-! ## An instrumented forward pass that flags near-zero divisors -/

theorem is_near_zero_zero : is_near_zero 0 = true := by decide

theorem coeff_out_of_range (s : LinearSystem) (k col : ℕ)
    (h : s.planes.length ≤ k) : coeff s k col = 0 := by
  have hd : s.planes.getD k default = default := by
    rw [List.getD_eq_getElem?_getD, List.getElem?_eq_none (by simpa using h)]
    rfl
  unfold coeff getRow
  rw [hd]
  rfl

/-- `clear_coefficients_below`, guarded by the only check that can fail in
the routine: every division there divides by `beta`, so the run is flagged
when `beta` is near-zero (division by an exact zero is the only exception
Python's `Decimal` could raise, and a zero divisor is in particular
near-zero). -/
def clear_coefficients_below_checked (s : LinearSystem) (row col : ℕ) :
    Option LinearSystem :=
  if is_near_zero (coeff s row col) then none
  else some (clear_coefficients_below s row col)

/-- The row-processing loop with the guarded elimination step. -/
def tf_while_checked (s : LinearSystem) (i j : ℕ) :
    ℕ → Option (LinearSystem × ℕ)
  | 0 => some (s, j)
  | fuel + 1 =>
    if is_near_zero (coeff s i j) then
      match swap_with_row_below s i j with
      | (s', true) =>
        (clear_coefficients_below_checked s' i j).map (fun t => (t, j + 1))
      | (s', false) => tf_while_checked s' i (j + 1) fuel
    else (clear_coefficients_below_checked s i j).map (fun t => (t, j + 1))

/-- The forward pass with the guarded elimination step. -/
def tf_rows_checked (dim : ℕ) (s : LinearSystem) (i j : ℕ) :
    ℕ → Option LinearSystem
  | 0 => some s
  | fuel + 1 =>
    match tf_while_checked s i j (dim - j) with
    | none => none
    | some (s', j') => tf_rows_checked dim s' (i + 1) j' fuel

/-- `compute_triangular_form` with every division guarded. -/
def compute_triangular_form_checked (s : LinearSystem) : Option LinearSystem :=
  tf_rows_checked s.dimension s 0 0 s.planes.length

theorem swap_search_success (row col : ℕ) :
    ∀ (fuel k : ℕ) (s s' : LinearSystem), row < k →
      swap_search s row col k fuel = (s', true) →
      is_near_zero (coeff s' row col) = false := by
  intro fuel
  induction fuel with
  | zero => intro k s s' _ h; simp [swap_search] at h
  | succ f ih =>
    intro k s s' hk h
    simp only [swap_search] at h
    split at h
    · exact ih (k + 1) s s' (by omega) h
    next hc =>
      have hklen : k < s.planes.length := by
        by_contra hge
        rw [coeff_out_of_range s k col (by omega), is_near_zero_zero] at hc
        exact hc rfl
      have hs' : s' = swap_rows s row k := by
        cases h; rfl
      subst hs'
      have : coeff (swap_rows s row k) row col = coeff s k col := by
        unfold coeff getRow swap_rows
        simp only
        rw [list_getD_set_ne _ _ _ _ _ (by omega : k ≠ row),
          list_getD_set_self _ _ _ _ (by omega : row < s.planes.length)]
        rfl
      rw [this]
      simpa using hc

theorem tf_while_checked_eq (i : ℕ) :
    ∀ (fuel j : ℕ) (s : LinearSystem),
      tf_while_checked s i j fuel = some (tf_while s i j fuel) := by
  intro fuel
  induction fuel with
  | zero => intro j s; rfl
  | succ f ih =>
    intro j s
    simp only [tf_while_checked, tf_while]
    split
    · split
      next heq =>
        have hnz := swap_search_success i j _ (i + 1) s _ (by omega) heq
        simp [clear_coefficients_below_checked, hnz]
      next heq => exact ih (j + 1) _
    next hc =>
      simp only [Bool.not_eq_true] at hc
      simp [clear_coefficients_below_checked, hc]

theorem tf_rows_checked_eq (dim : ℕ) :
    ∀ (fuel i j : ℕ) (s : LinearSystem),
      tf_rows_checked dim s i j fuel = some (tf_rows dim s i j fuel) := by
  intro fuel
  induction fuel with
  | zero => intro i j s; rfl
  | succ f ih =>
    intro i j s
    simp only [tf_rows_checked, tf_rows, tf_while_checked_eq]
    exact ih (i + 1) _ _

/-- C5: on a well-formed system the forward pass raises no exception —
in the model, the instrumented pass in which every division's divisor
`beta` is checked completes and returns exactly `compute_triangular_form`:
elimination is only ever run after a non-near-zero pivot has been secured
at the cursor position, so every divisor is non-near-zero (hence nonzero),
and all-zero rows are ordinary data in the result. -/
theorem claim_C5 (s : LinearSystem) (h : wellFormed s = true) :
    compute_triangular_form_checked s = some (compute_triangular_form s) :=
  tf_rows_checked_eq s.dimension s.planes.length 0 0 s

/-- Witness for C5 on a system that exercises a swap, an elimination and a
skipped column. -/
theorem claim_C5_witness :
    wellFormed (LinearSystem.mk [⟨[0, 1, 1], 1⟩, ⟨[1, 1, 1], 2⟩, ⟨[1, 1, 1], 3⟩] 3)
      = true ∧
    compute_triangular_form_checked
        (LinearSystem.mk [⟨[0, 1, 1], 1⟩, ⟨[1, 1, 1], 2⟩, ⟨[1, 1, 1], 3⟩] 3) =
      some (compute_triangular_form
        (LinearSystem.mk [⟨[0, 1, 1], 1⟩, ⟨[1, 1, 1], 2⟩, ⟨[1, 1, 1], 3⟩] 3)) :=
  ⟨by decide, claim_C5 _ (by decide)⟩

/-! ## A specification-level description of the forward pass -/

/-- The row combination `alpha * pivotRow + p` used by elimination. -/
def combined_row (pivotRow : Hyperplane) (alpha : ℚ) (p : Hyperplane) : Hyperplane :=
  ⟨vplus (times_scalar pivotRow.normal_vector alpha) p.normal_vector,
   pivotRow.constant_term * alpha + p.constant_term⟩

theorem getElem?_add_ne (s : LinearSystem) (c : ℚ) (f t m : ℕ) (h : t ≠ m) :
    (add_multiple_times_row_to_row s c f t).planes[m]? = s.planes[m]? := by
  unfold add_multiple_times_row_to_row
  exact List.getElem?_set_ne h

theorem getRow_add_ne (s : LinearSystem) (c : ℚ) (f t m : ℕ) (h : t ≠ m) :
    getRow (add_multiple_times_row_to_row s c f t) m = getRow s m := by
  unfold getRow
  rw [List.getD_eq_getElem?_getD, List.getD_eq_getElem?_getD, getElem?_add_ne s c f t m h]

theorem coeff_add_ne (s : LinearSystem) (c : ℚ) (f t m col : ℕ) (h : t ≠ m) :
    coeff (add_multiple_times_row_to_row s c f t) m col = coeff s m col := by
  unfold coeff
  rw [getRow_add_ne s c f t m h]

theorem getRow_eq_of_getElem? (s : LinearSystem) (m : ℕ) (p : Hyperplane)
    (h : s.planes[m]? = some p) : getRow s m = p := by
  unfold getRow
  rw [List.getD_eq_getElem?_getD, h]
  rfl

/-- The rows of the elimination loop, described pointwise: every row `m`
with `k ≤ m < k + fuel` receives `alpha = -coefficient(m, col) / beta`
times row `row`; rows outside the range are untouched.  All reads are from
the state at entry. -/
theorem clear_below_go_row (row col : ℕ) (beta : ℚ) :
    ∀ (fuel k m : ℕ) (s : LinearSystem), row < k →
      (clear_below_go s row col beta k fuel).planes[m]? =
        if k ≤ m ∧ m < k + fuel then
          (s.planes[m]?).map
            (combined_row (getRow s row) (-(coeff s m col) / beta))
        else s.planes[m]? := by
  intro fuel
  induction fuel with
  | zero =>
    intro k m s _
    rw [if_neg (by omega)]
    rfl
  | succ f ih =>
    intro k m s hrow
    have step : clear_below_go s row col beta k (f + 1) =
        clear_below_go (add_multiple_times_row_to_row s (-(coeff s k col) / beta) row k)
          row col beta (k + 1) f := rfl
    rw [step, ih (k + 1) m _ (by omega)]
    rcases Nat.lt_trichotomy m k with hm | hm | hm
    · rw [if_neg (by omega), if_neg (by omega),
        getElem?_add_ne _ _ _ _ _ (by omega)]
    · subst hm
      rw [if_neg (by omega), if_pos (by omega)]
      cases hp : s.planes[m]? with
      | none =>
        have hlen : s.planes.length ≤ m := by
          simpa using List.getElem?_eq_none_iff.mp hp
        unfold add_multiple_times_row_to_row
        simp only
        rw [List.getElem?_eq_none (by simpa using hlen)]
        rfl
      | some p =>
        have hlen : m < s.planes.length := by
          by_contra hge
          rw [List.getElem?_eq_none (by omega)] at hp
          cases hp
        unfold add_multiple_times_row_to_row
        simp only
        rw [List.getElem?_set_self hlen]
        have hgr : getRow s m = p := getRow_eq_of_getElem? s m p hp
        simp [combined_row, hgr]
    · by_cases hmf : m < k + 1 + f
      · rw [if_pos (by omega), if_pos (by omega),
          getElem?_add_ne _ _ _ _ _ (by omega),
          getRow_add_ne _ _ _ _ _ (by omega), coeff_add_ne _ _ _ _ _ _ (by omega)]
      · rw [if_neg (by omega), if_neg (by omega),
          getElem?_add_ne _ _ _ _ _ (by omega)]

/-- The claim's description of the elimination step: for every row `k > i`,
apply `add_multiple_of_row_to_row` with `alpha = -coefficient(k, j) /
coefficient(i, j)` (all coefficients read at entry). -/
def eliminate_below_spec (s : LinearSystem) (i j : ℕ) : LinearSystem :=
  { s with planes := s.planes.mapIdx (fun k p =>
      if i < k then combined_row (getRow s i) (-(coeff s k j) / coeff s i j) p
      else p) }

theorem clear_coefficients_below_eq_spec (s : LinearSystem) (i j : ℕ) :
    clear_coefficients_below s i j = eliminate_below_spec s i j := by
  unfold clear_coefficients_below eliminate_below_spec
  have hdim : (clear_below_go s i j (coeff s i j) (i + 1)
      (s.planes.length - (i + 1))).dimension = s.dimension :=
    clear_below_go_dimension _ _ _ _ _ s
  have hplanes : (clear_below_go s i j (coeff s i j) (i + 1)
      (s.planes.length - (i + 1))).planes =
      s.planes.mapIdx (fun k p =>
        if i < k then combined_row (getRow s i) (-(coeff s k j) / coeff s i j) p
        else p) := by
    apply List.ext_getElem?
    intro m
    rw [clear_below_go_row i j (coeff s i j) _ (i + 1) m s (by omega),
      List.getElem?_mapIdx]
    by_cases hm : m < s.planes.length
    · by_cases hmi : i < m
      · rw [if_pos (by omega)]
        rw [List.getElem?_eq_getElem hm]
        simp [hmi]
      · rw [if_neg (by omega)]
        rw [List.getElem?_eq_getElem hm]
        simp [hmi]
    · rw [if_neg (by omega), List.getElem?_eq_none (by omega)]
      rfl
  cases hsys : clear_below_go s i j (coeff s i j) (i + 1)
      (s.planes.length - (i + 1)) with
  | mk ps d =>
    rw [hsys] at hplanes hdim
    simp only at hplanes hdim
    rw [hplanes, hdim]

/-- The claim's description of the pivot search: the first row strictly
below `row`, in increasing row order, whose column-`col` coefficient is not
near-zero. -/
def first_swappable_row_below (s : LinearSystem) (row col : ℕ) : Option ℕ :=
  (List.range' (row + 1) (s.planes.length - (row + 1))).find?
    (fun k => !(is_near_zero (coeff s k col)))

/-- The claim's description of `swap_with_row_below`. -/
def swap_with_row_below_spec (s : LinearSystem) (row col : ℕ) :
    LinearSystem × Bool :=
  match first_swappable_row_below s row col with
  | some k => (swap_rows s row k, true)
  | none => (s, false)

theorem swap_search_eq_find (row col : ℕ) :
    ∀ (fuel k : ℕ) (s : LinearSystem),
      swap_search s row col k fuel =
        match (List.range' k fuel).find?
            (fun m => !(is_near_zero (coeff s m col))) with
        | some m => (swap_rows s row m, true)
        | none => (s, false) := by
  intro fuel
  induction fuel with
  | zero => intro k s; rfl
  | succ f ih =>
    intro k s
    rw [List.range'_succ]
    simp only [swap_search, List.find?_cons]
    cases hk : is_near_zero (coeff s k col) with
    | true => simp only [hk, if_true, Bool.not_true, ih (k + 1) s]
    | false => simp [hk]

theorem swap_with_row_below_eq_spec (s : LinearSystem) (row col : ℕ) :
    swap_with_row_below s row col = swap_with_row_below_spec s row col := by
  unfold swap_with_row_below swap_with_row_below_spec first_swappable_row_below
  exact swap_search_eq_find row col _ (row + 1) s

/-- The claim's description of one row of the forward pass, driven by the
shared column cursor. -/
def tf_while_spec (s : LinearSystem) (i j : ℕ) : ℕ → LinearSystem × ℕ
  | 0 => (s, j)
  | fuel + 1 =>
    if is_near_zero (coeff s i j) then
      match swap_with_row_below_spec s i j with
      | (s', true) => (eliminate_below_spec s' i j, j + 1)
      | (s', false) => tf_while_spec s' i (j + 1) fuel
    else (eliminate_below_spec s i j, j + 1)

/-- The claim's description of the whole forward pass. -/
def tf_rows_spec (dim : ℕ) (s : LinearSystem) (i j : ℕ) : ℕ → LinearSystem
  | 0 => s
  | fuel + 1 =>
    let r := tf_while_spec s i j (dim - j)
    tf_rows_spec dim r.1 (i + 1) r.2 fuel

/-- `compute_triangular_form`, as described by the claim. -/
def compute_triangular_form_spec (s : LinearSystem) : LinearSystem :=
  tf_rows_spec s.dimension s 0 0 s.planes.length

theorem tf_while_eq_spec (i : ℕ) :
    ∀ (fuel j : ℕ) (s : LinearSystem),
      tf_while s i j fuel = tf_while_spec s i j fuel := by
  intro fuel
  induction fuel with
  | zero => intro j s; rfl
  | succ f ih =>
    intro j s
    simp only [tf_while, tf_while_spec, swap_with_row_below_eq_spec,
      clear_coefficients_below_eq_spec]
    split
    · cases hsw : swap_with_row_below_spec s i j with
      | mk s' ok =>
        cases ok with
        | true => simp [clear_coefficients_below_eq_spec]
        | false => simp only [ih (j + 1) s']
    · rfl

theorem tf_rows_eq_spec (dim : ℕ) :
    ∀ (fuel i j : ℕ) (s : LinearSystem),
      tf_rows dim s i j fuel = tf_rows_spec dim s i j fuel := by
  intro fuel
  induction fuel with
  | zero => intro i j s; rfl
  | succ f ih =>
    intro i j s
    simp only [tf_rows, tf_rows_spec, tf_while_eq_spec]
    exact ih (i + 1) _ _

/-- C4: the forward pass behaves exactly as described — one shared column
cursor `j`, never reset per row; when the coefficient at `(i, j)` is
near-zero it swaps with the first row strictly below `i` (in increasing row
order) whose column-`j` coefficient is not near-zero, and advances `j`
without a pivot when no such row exists; once a pivot is secured at
`(i, j)`, every row `k > i` receives `add_multiple_of_row_to_row` with
`alpha = -coefficient(k, j) / coefficient(i, j)`, after which `j` advances
and the pass moves to row `i + 1`. -/
theorem claim_C4 (s : LinearSystem) :
    compute_triangular_form s = compute_triangular_form_spec s :=
  tf_rows_eq_spec s.dimension s.planes.length 0 0 s

/-! ## Row lengths are bounded by the dimension -/

/-- Every row's normal vector fits inside the system's dimension. -/
def rowsFitDim (s : LinearSystem) : Prop :=
  ∀ p ∈ s.planes, p.normal_vector.length ≤ s.dimension

theorem rowsFitDim_of_wellFormed (s : LinearSystem) (h : wellFormed s = true) :
    rowsFitDim s := by
  intro p hp
  have := List.all_eq_true.mp h p hp
  simp only [beq_iff_eq] at this
  omega

theorem getRow_fit {s : LinearSystem} (h : rowsFitDim s) (i : ℕ) :
    (getRow s i).normal_vector.length ≤ s.dimension := by
  unfold getRow
  rw [List.getD_eq_getElem?_getD]
  cases hp : s.planes[i]? with
  | none => exact Nat.zero_le _
  | some p =>
    have : p ∈ s.planes := List.getElem?_mem hp
    exact h p this

theorem rowsFitDim_set {s : LinearSystem} (r : ℕ) (p : Hyperplane)
    (h : rowsFitDim s) (hp : p.normal_vector.length ≤ s.dimension) :
    ∀ q ∈ s.planes.set r p, q.normal_vector.length ≤ s.dimension := by
  intro q hq
  rcases List.mem_or_eq_of_mem_set hq with hmem | heq
  · exact h q hmem
  · subst heq; exact hp

theorem rowsFitDim_swap_rows {s : LinearSystem} (r1 r2 : ℕ) (h : rowsFitDim s) :
    rowsFitDim (swap_rows s r1 r2) := by
  intro q hq
  unfold swap_rows at hq
  simp only at hq
  rcases List.mem_or_eq_of_mem_set hq with hmem | heq
  · exact rowsFitDim_set r1 (getRow s r2) h (getRow_fit h r2) q hmem
  · subst heq; exact getRow_fit h r1

theorem rowsFitDim_multiply {s : LinearSystem} (c : ℚ) (r : ℕ)
    (h : rowsFitDim s) : rowsFitDim (multiply_coefficient_and_row s c r) := by
  intro q hq
  unfold multiply_coefficient_and_row at hq
  simp only at hq
  refine rowsFitDim_set r _ h ?_ q hq
  simpa [times_scalar] using getRow_fit h r

theorem rowsFitDim_add {s : LinearSystem} (c : ℚ) (f t : ℕ)
    (h : rowsFitDim s) : rowsFitDim (add_multiple_times_row_to_row s c f t) := by
  intro q hq
  unfold add_multiple_times_row_to_row at hq
  simp only at hq
  refine rowsFitDim_set t _ h ?_ q hq
  simp only [vplus, List.length_zipWith]
  calc min (times_scalar (getRow s f).normal_vector c).length
        (getRow s t).normal_vector.length
      ≤ (getRow s t).normal_vector.length := Nat.min_le_right _ _
    _ ≤ s.dimension := getRow_fit h t

theorem rowsFitDim_swap_search (row col : ℕ) :
    ∀ (fuel k : ℕ) {s : LinearSystem}, rowsFitDim s →
      rowsFitDim (swap_search s row col k fuel).1 := by
  intro fuel
  induction fuel with
  | zero => intro k s h; exact h
  | succ f ih =>
    intro k s h
    simp only [swap_search]
    split
    · exact ih (k + 1) h
    · exact rowsFitDim_swap_rows row k h

theorem rowsFitDim_clear_below_go (row col : ℕ) (beta : ℚ) :
    ∀ (fuel k : ℕ) {s : LinearSystem}, rowsFitDim s →
      rowsFitDim (clear_below_go s row col beta k fuel) := by
  intro fuel
  induction fuel with
  | zero => intro k s h; exact h
  | succ f ih =>
    intro k s h
    exact ih (k + 1) (rowsFitDim_add _ _ _ h)

theorem rowsFitDim_clear_below {s : LinearSystem} (row col : ℕ)
    (h : rowsFitDim s) : rowsFitDim (clear_coefficients_below s row col) :=
  rowsFitDim_clear_below_go row col _ _ _ h

theorem rowsFitDim_tf_while (i : ℕ) :
    ∀ (fuel j : ℕ) {s : LinearSystem}, rowsFitDim s →
      rowsFitDim (tf_while s i j fuel).1 := by
  intro fuel
  induction fuel with
  | zero => intro j s h; exact h
  | succ f ih =>
    intro j s h
    simp only [tf_while]
    split
    · cases heq : swap_with_row_below s i j with
      | mk s' ok =>
        have hs' : rowsFitDim s' := by
          have := rowsFitDim_swap_search i j (s.planes.length - (i + 1)) (i + 1) h
          rw [show swap_with_row_below s i j =
            swap_search s i j (i + 1) (s.planes.length - (i + 1)) from rfl] at heq
          rw [heq] at this
          exact this
        cases ok with
        | true => simpa using rowsFitDim_clear_below i j hs'
        | false => simpa using ih (j + 1) hs'
    · exact rowsFitDim_clear_below i j h

theorem rowsFitDim_tf_rows (dim : ℕ) :
    ∀ (fuel i j : ℕ) {s : LinearSystem}, rowsFitDim s →
      rowsFitDim (tf_rows dim s i j fuel) := by
  intro fuel
  induction fuel with
  | zero => intro i j s h; exact h
  | succ f ih =>
    intro i j s h
    exact ih (i + 1) _ (rowsFitDim_tf_while i _ _ h)

theorem rowsFitDim_clear_above_go (row col : ℕ) :
    ∀ (k : ℕ) {s : LinearSystem}, rowsFitDim s →
      rowsFitDim (clear_above_go s row col k) := by
  intro k
  induction k with
  | zero => intro s h; exact h
  | succ n ih => intro s h; exact ih (rowsFitDim_add _ _ _ h)

theorem rowsFitDim_rref_go (pivots : List ℤ) :
    ∀ (cnt : ℕ) {s : LinearSystem}, rowsFitDim s →
      rowsFitDim (rref_go pivots s cnt) := by
  intro cnt
  induction cnt with
  | zero => intro s h; exact h
  | succ i ih =>
    intro s h
    simp only [rref_go]
    split
    · exact ih h
    · exact ih (rowsFitDim_clear_above_go _ _ _
        (rowsFitDim_multiply _ _ h))

theorem rowsFitDim_compute_rref {s : LinearSystem} (h : rowsFitDim s) :
    rowsFitDim (compute_rref s) := by
  unfold compute_rref
  exact rowsFitDim_rref_go _ _ (rowsFitDim_tf_rows _ _ _ _ h)

/-! ## Pivot structure predicates and the extraction loops -/

/-- The per-row pivot column: the first non-near-zero coordinate, `-1` when
there is none. -/
def pivotOf (p : Hyperplane) : ℤ :=
  match first_nonzero_index p.normal_vector with
  | .ok k => (k : ℤ)
  | .error _ => -1

theorem indices_eq_map_pivotOf (s : LinearSystem) :
    indices_of_first_nonzero_terms_in_each_row s = s.planes.map pivotOf := by
  unfold indices_of_first_nonzero_terms_in_each_row
  exact List.map_congr_left (fun p _ => rfl)

/-- The echelon shape of a pivot-index list: the rows with pivots form a
prefix with strictly increasing pivot columns, and every row after the
first pivotless row is pivotless. -/
def pivotStructureOK (l : List ℤ) : Bool :=
  decide (List.Pairwise (· < ·) (l.takeWhile (fun x => decide (0 ≤ x)))) &&
  (l.dropWhile (fun x => decide (0 ≤ x))).all (fun x => decide (x < 0))

/-- The number of distinct pivot columns over all rows. -/
def num_distinct_pivot_cols (s : LinearSystem) : ℕ :=
  ((indices_of_first_nonzero_terms_in_each_row s).filter
    (fun x => decide (0 ≤ x))).dedup.length

theorem pivotStructureOK_nonneg_front {l : List ℤ}
    (h : pivotStructureOK l = true) :
    ∀ i, (hi : i < l.length) → 0 ≤ l[i] →
      ∀ m, (hm : m < i) → 0 ≤ l[m] ∧ l[m] < l[i] := by
  have hand := (Bool.and_eq_true _ _).mp h
  have h1 : List.Pairwise (· < ·) (l.takeWhile (fun x => decide (0 ≤ x))) :=
    of_decide_eq_true hand.1
  have h2 : ∀ x ∈ l.dropWhile (fun x => decide (0 ≤ x)), x < 0 := by
    intro x hx
    exact of_decide_eq_true (List.all_eq_true.mp hand.2 x hx)
  have hsplit : l = l.takeWhile (fun x => decide (0 ≤ x)) ++
      l.dropWhile (fun x => decide (0 ≤ x)) :=
    (List.takeWhile_append_dropWhile _ _).symm
  have hidx : ∀ i, (hi : i < l.length) → 0 ≤ l[i] →
      i < (l.takeWhile (fun x => decide (0 ≤ x))).length := by
    intro i hi hpos
    by_contra hge
    have hge' : (l.takeWhile (fun x => decide (0 ≤ x))).length ≤ i := by omega
    have hgl : l[i]? =
        (l.dropWhile (fun x => decide (0 ≤ x)))[i -
          (l.takeWhile (fun x => decide (0 ≤ x))).length]? := by
      conv_lhs => rw [hsplit]
      exact List.getElem?_append_right hge'
    rw [List.getElem?_eq_getElem hi] at hgl
    cases hdi : (l.dropWhile (fun x => decide (0 ≤ x)))[i -
        (l.takeWhile (fun x => decide (0 ≤ x))).length]? with
    | none => rw [hdi] at hgl; cases hgl
    | some x =>
      rw [hdi] at hgl
      cases hgl
      have := h2 _ (List.getElem?_mem hdi)
      omega
  intro i hi hpos m hm
  have hit := hidx i hi hpos
  have hmt : m < (l.takeWhile (fun x => decide (0 ≤ x))).length := by omega
  have hlen : ∀ j, j < (l.takeWhile (fun x => decide (0 ≤ x))).length →
      j < l.length := by
    intro j hj
    have hl := congrArg List.length hsplit
    rw [List.length_append] at hl
    omega
  have hti : ∀ j, (hj : j < (l.takeWhile (fun x => decide (0 ≤ x))).length) →
      (hj2 : j < l.length) →
      l[j] = (l.takeWhile (fun x => decide (0 ≤ x)))[j] := by
    intro j hj hj2
    have hgl : l[j]? = (l.takeWhile (fun x => decide (0 ≤ x)))[j]? := by
      conv_lhs => rw [hsplit]
      exact List.getElem?_append_left hj
    rw [List.getElem?_eq_getElem hj2, List.getElem?_eq_getElem hj] at hgl
    exact Option.some_injective _ hgl
  have hmi := List.pairwise_iff_getElem.mp h1 m i hmt hit hm
  have hmnn : 0 ≤ (l.takeWhile (fun x => decide (0 ≤ x)))[m] := by
    have hmem : (l.takeWhile (fun x => decide (0 ≤ x)))[m] ∈
        l.takeWhile (fun x => decide (0 ≤ x)) := List.getElem_mem _
    have hp := List.mem_takeWhile_imp hmem
    exact of_decide_eq_true hp
  constructor
  · rw [hti m hmt (hlen m hmt)]; exact hmnn
  · rw [hti m hmt (hlen m hmt), hti i hit (hlen i hit)]; exact hmi

theorem store_at_pivots_length (value : Hyperplane → ℚ) :
    ∀ (rows : List (Hyperplane × ℤ)) (coords : List ℚ),
      (store_at_pivots value rows coords).length = coords.length := by
  intro rows
  induction rows with
  | nil => intro coords; rfl
  | cons q rest ih =>
    intro coords
    cases q with
    | mk p pv =>
      simp only [store_at_pivots]
      split
      · rfl
      · rw [ih]; simp

theorem store_at_pivots_untouched (value : Hyperplane → ℚ) :
    ∀ (rows : List (Hyperplane × ℤ)) (coords : List ℚ) (v : ℕ),
      (∀ q ∈ rows, 0 ≤ q.2 → q.2.toNat ≠ v) →
      (store_at_pivots value rows coords).getD v 0 = coords.getD v 0 := by
  intro rows
  induction rows with
  | nil => intro coords v _; rfl
  | cons q rest ih =>
    intro coords v hne
    cases q with
    | mk p pv =>
      simp only [store_at_pivots]
      split
      · rfl
      next hnneg =>
        have hpv : 0 ≤ pv := by omega
        rw [ih _ v (fun q hq hq2 => hne q (List.mem_cons_of_mem _ hq) hq2)]
        exact list_getD_set_ne _ _ _ _ _
          (hne (p, pv) (List.mem_cons_self _ _) hpv)

theorem store_at_pivots_hit (value : Hyperplane → ℚ) :
    ∀ (rows : List (Hyperplane × ℤ)) (i : ℕ) (coords : List ℚ)
      (q : Hyperplane × ℤ),
      rows[i]? = some q → 0 ≤ q.2 →
      (∀ m, m < i → ∀ r, rows[m]? = some r → 0 ≤ r.2) →
      (∀ m, m ≠ i → ∀ r, rows[m]? = some r → 0 ≤ r.2 → r.2 ≠ q.2) →
      q.2.toNat < coords.length →
      (store_at_pivots value rows coords).getD q.2.toNat 0 = value q.1 := by
  intro rows
  induction rows with
  | nil => intro i coords q hq; simp at hq
  | cons r rest ih =>
    intro i coords q hq hq2 hreach huniq hlen
    cases i with
    | zero =>
      rw [List.getElem?_cons_zero] at hq
      injection hq with hq
      subst hq
      cases r with
      | mk p pv =>
        simp only [store_at_pivots]
        rw [if_neg (by omega)]
        rw [store_at_pivots_untouched value rest _ pv.toNat ?hrest]
        · exact list_getD_set_self _ _ _ _ hlen
        case hrest =>
          intro rr hrr hrr2
          obtain ⟨m, hmr⟩ := List.getElem?_of_mem hrr
          have := huniq (m + 1) (by omega) rr
            (by rw [List.getElem?_cons_succ]; exact hmr) hrr2
          omega
    | succ i' =>
      rw [List.getElem?_cons_succ] at hq
      have hr2 : 0 ≤ r.2 := hreach 0 (by omega) r (List.getElem?_cons_zero)
      cases r with
      | mk p pv =>
        simp only [store_at_pivots]
        rw [if_neg (by omega)]
        refine ih i' _ q hq hq2 ?_ ?_ (by simpa using hlen)
        · intro m hm rr hrr
          exact hreach (m + 1) (by omega) rr
            (by rw [List.getElem?_cons_succ]; exact hrr)
        · intro m hm rr hrr hrr2
          exact huniq (m + 1) (by omega) rr
            (by rw [List.getElem?_cons_succ]; exact hrr) hrr2

/-! ## Characterizing the extraction routines -/

theorem zip_planes_pivots (s : LinearSystem) :
    s.planes.zip (indices_of_first_nonzero_terms_in_each_row s) =
      s.planes.map (fun p => (p, pivotOf p)) := by
  have h := List.zip_map' id pivotOf s.planes
  rw [List.map_id] at h
  rw [indices_eq_map_pivotOf, h]
  exact List.map_congr_left (fun p _ => rfl)

theorem indices_length (s : LinearSystem) :
    (indices_of_first_nonzero_terms_in_each_row s).length = s.planes.length := by
  rw [indices_eq_map_pivotOf, List.length_map]

theorem indices_getElem (s : LinearSystem) (i : ℕ)
    (hi : i < s.planes.length) :
    (indices_of_first_nonzero_terms_in_each_row s)[i]? =
      some (pivotOf s.planes[i]) := by
  rw [indices_eq_map_pivotOf, List.getElem?_map, List.getElem?_eq_getElem hi]
  rfl

theorem indices_getElem_eq (s : LinearSystem) (i : ℕ)
    (hi : i < s.planes.length)
    (hil : i < (indices_of_first_nonzero_terms_in_each_row s).length) :
    (indices_of_first_nonzero_terms_in_each_row s)[i] = pivotOf s.planes[i] := by
  have h0 := indices_getElem s i hi
  rw [List.getElem?_eq_getElem hil] at h0
  exact Option.some_injective _ h0

theorem indices_getD_eq (s : LinearSystem) (i : ℕ) (d : ℤ)
    (hi : i < s.planes.length) :
    (indices_of_first_nonzero_terms_in_each_row s).getD i d =
      pivotOf s.planes[i] := by
  rw [List.getD_eq_getElem?_getD, indices_getElem s i hi]
  rfl

theorem pivotOf_nonneg_fni {p : Hyperplane} {v : ℕ}
    (h : pivotOf p = (v : ℤ)) : first_nonzero_index p.normal_vector = .ok v := by
  unfold pivotOf at h
  cases hfni : first_nonzero_index p.normal_vector with
  | ok k =>
    rw [hfni] at h
    have hk : (k : ℤ) = (v : ℤ) := h
    have : k = v := by exact_mod_cast hk
    rw [this]
  | error e =>
    rw [hfni] at h
    have hk : (-1 : ℤ) = (v : ℤ) := h
    omega

theorem pivot_lt_dim {R : LinearSystem} (hfit : rowsFitDim R) {i : ℕ}
    (hi : i < R.planes.length) {v : ℕ}
    (hv : (indices_of_first_nonzero_terms_in_each_row R).getD i (-1) = (v : ℤ)) :
    v < R.dimension := by
  rw [indices_getD_eq R i (-1) hi] at hv
  have hfni := pivotOf_nonneg_fni hv
  have h1 := fni_ok_lt _ _ hfni
  have h2 := hfit R.planes[i] (List.getElem_mem _)
  omega

theorem getD_replicate_zero (n c : ℕ) :
    (List.replicate n (0 : ℚ)).getD c 0 = 0 := by
  rw [List.getD_eq_getElem?_getD, List.getElem?_replicate]
  split <;> rfl

theorem contains_false_not_mem {l : List ℤ} {x : ℤ}
    (h : l.contains x = false) : x ∉ l := by
  intro hmem
  have ht : l.contains x = true := List.elem_eq_true_of_mem hmem
  rw [ht] at h
  cases h

/-- The extraction loops store, for each pivot row, that row's value into
the pivot column's coordinate (for any stored value and any initial
coordinate list of the right length). -/
theorem store_hit_R (R : LinearSystem) (hfit : rowsFitDim R)
    (h3 : pivotStructureOK (indices_of_first_nonzero_terms_in_each_row R) = true)
    (value : Hyperplane → ℚ) (coords : List ℚ)
    (hcoords : coords.length = R.dimension) :
    ∀ i, i < R.planes.length → ∀ v : ℕ,
      (indices_of_first_nonzero_terms_in_each_row R).getD i (-1) = (v : ℤ) →
      (store_at_pivots value
        (R.planes.zip (indices_of_first_nonzero_terms_in_each_row R))
        coords).getD v 0 = value (R.planes.getD i default) := by
  intro i hi v hv
  have hvdim : v < R.dimension := pivot_lt_dim hfit hi hv
  have hpiv : pivotOf R.planes[i] = (v : ℤ) := by
    rw [← indices_getD_eq R i (-1) hi]; exact hv
  have hilen : i < (indices_of_first_nonzero_terms_in_each_row R).length := by
    rw [indices_length]; exact hi
  have hPi : (indices_of_first_nonzero_terms_in_each_row R)[i] = (v : ℤ) := by
    rw [indices_getElem_eq R i hi hilen]; exact hpiv
  rw [zip_planes_pivots]
  have hmain := store_at_pivots_hit value
    (R.planes.map (fun p => (p, pivotOf p))) i coords (R.planes[i], (v : ℤ))
    (by
      rw [List.getElem?_map, List.getElem?_eq_getElem hi]
      simp [hpiv])
    (by positivity)
    (by
      intro m hm r hr
      rw [List.getElem?_map] at hr
      cases hpm : R.planes[m]? with
      | none => rw [hpm] at hr; cases hr
      | some pm =>
        rw [hpm] at hr
        injection hr with hr
        subst hr
        have hmlt : m < R.planes.length := by
          by_contra hge
          rw [List.getElem?_eq_none (by omega)] at hpm
          cases hpm
        have hpm' : R.planes[m] = pm := by
          have := List.getElem?_eq_getElem hmlt
          rw [hpm] at this
          exact (Option.some_injective _ this).symm
        have := (pivotStructureOK_nonneg_front h3 i hilen
          (by rw [hPi]; positivity) m hm).1
        rw [indices_getElem_eq R m hmlt (by rw [indices_length]; exact hmlt),
          hpm'] at this
        simpa using this)
    (by
      intro m hm r hr hr2
      rw [List.getElem?_map] at hr
      cases hpm : R.planes[m]? with
      | none => rw [hpm] at hr; cases hr
      | some pm =>
        rw [hpm] at hr
        injection hr with hr
        subst hr
        have hmlt : m < R.planes.length := by
          by_contra hge
          rw [List.getElem?_eq_none (by omega)] at hpm
          cases hpm
        have hpm' : R.planes[m] = pm := by
          have := List.getElem?_eq_getElem hmlt
          rw [hpm] at this
          exact (Option.some_injective _ this).symm
        have hmlen : m < (indices_of_first_nonzero_terms_in_each_row R).length := by
          rw [indices_length]; exact hmlt
        have hPm : (indices_of_first_nonzero_terms_in_each_row R)[m]
            = pivotOf pm := by
          rw [indices_getElem_eq R m hmlt hmlen, hpm']
        simp only
        intro hcontra
        rcases Nat.lt_or_ge m i with hlt | hge
        · have := (pivotStructureOK_nonneg_front h3 i hilen
            (by rw [hPi]; positivity) m hlt).2
          rw [hPi, hPm, hcontra] at this
          omega
        · have hgt : i < m := by omega
          have := (pivotStructureOK_nonneg_front h3 m hmlen
            (by rw [hPm]; simpa using hr2) i hgt).2
          rw [hPi, hPm, hcontra] at this
          omega)
    (by
      simp only [Int.toNat_natCast, hcoords]
      exact hvdim)
  simp only [Int.toNat_natCast] at hmain
  rw [hmain]
  rw [List.getD_eq_getElem?_getD, List.getElem?_eq_getElem hi]
  rfl

/-- The extraction loops leave every coordinate that is not a pivot column
at its initial value. -/
theorem store_untouched_R (R : LinearSystem) (value : Hyperplane → ℚ)
    (coords : List ℚ) (c : ℕ)
    (h : (indices_of_first_nonzero_terms_in_each_row R).contains (c : ℤ) = false) :
    (store_at_pivots value
      (R.planes.zip (indices_of_first_nonzero_terms_in_each_row R))
      coords).getD c 0 = coords.getD c 0 := by
  rw [zip_planes_pivots]
  apply store_at_pivots_untouched
  intro q hq hq2 hqc
  obtain ⟨p, hp, hpq⟩ := List.mem_map.mp hq
  have hq2' : q.2 = (c : ℤ) := by omega
  have hpc : pivotOf p = (c : ℤ) := by rw [← hq2', ← hpq]
  have hmem : (c : ℤ) ∈ indices_of_first_nonzero_terms_in_each_row R := by
    rw [indices_eq_map_pivotOf, ← hpc]
    exact List.mem_map_of_mem pivotOf hp
  exact contains_false_not_mem h hmem

/-- The basepoint extraction reads, for each pivot row, that row's constant
term into the pivot column's coordinate. -/
theorem extract_basepoint_hit (R : LinearSystem) (hfit : rowsFitDim R)
    (h3 : pivotStructureOK (indices_of_first_nonzero_terms_in_each_row R) = true) :
    ∀ i, i < R.planes.length → ∀ v : ℕ,
      (indices_of_first_nonzero_terms_in_each_row R).getD i (-1) = (v : ℤ) →
      (extract_basepoint_for_parametrization R).getD v 0 =
        (R.planes.getD i default).constant_term := by
  intro i hi v hv
  show (store_at_pivots (fun p => p.constant_term)
    (R.planes.zip (indices_of_first_nonzero_terms_in_each_row R))
    (List.replicate R.dimension (0 : ℚ))).getD v 0 =
    (R.planes.getD i default).constant_term
  exact store_hit_R R hfit h3 _ _ (List.length_replicate _ _) i hi v hv

/-- Basepoint coordinates at non-pivot columns are zero. -/
theorem extract_basepoint_zero (R : LinearSystem) (c : ℕ)
    (h : (indices_of_first_nonzero_terms_in_each_row R).contains (c : ℤ) = false) :
    (extract_basepoint_for_parametrization R).getD c 0 = 0 := by
  show (store_at_pivots (fun p => p.constant_term)
    (R.planes.zip (indices_of_first_nonzero_terms_in_each_row R))
    (List.replicate R.dimension (0 : ℚ))).getD c 0 = 0
  rw [store_untouched_R R _ _ c h]
  exact getD_replicate_zero _ _

/-! ## The free-variable list and the direction vectors -/

theorem mem_free_variable_indices (R : LinearSystem) (f : ℕ) :
    f ∈ free_variable_indices R ↔
      f < R.dimension ∧
      (indices_of_first_nonzero_terms_in_each_row R).contains (f : ℤ) = false := by
  unfold free_variable_indices
  rw [List.mem_filter, List.mem_range]
  constructor
  · rintro ⟨h1, h2⟩
    exact ⟨h1, by simpa using h2⟩
  · rintro ⟨h1, h2⟩
    exact ⟨h1, by simpa using h2⟩

theorem free_variable_indices_sorted (R : LinearSystem) :
    List.Pairwise (· < ·) (free_variable_indices R) := by
  unfold free_variable_indices
  exact (List.pairwise_lt_range _).sublist (List.filter_sublist _)

theorem extract_dirs_length (R : LinearSystem) :
    (extract_direction_vectors_for_parametrization R).length =
      (free_variable_indices R).length := by
  show ((free_variable_indices R).map _).length = _
  rw [List.length_map]

theorem extract_dirs_getD (R : LinearSystem) (k : ℕ)
    (hk : k < (free_variable_indices R).length) :
    (extract_direction_vectors_for_parametrization R).getD k [] =
      store_at_pivots
        (fun p => -(p.normal_vector.getD ((free_variable_indices R).getD k 0) 0))
        (R.planes.zip (indices_of_first_nonzero_terms_in_each_row R))
        ((List.replicate R.dimension (0 : ℚ)).set
          ((free_variable_indices R).getD k 0) 1) := by
  have hgetD : (free_variable_indices R).getD k 0 =
      (free_variable_indices R)[k] := by
    rw [List.getD_eq_getElem?_getD, List.getElem?_eq_getElem hk]
    rfl
  show ((free_variable_indices R).map (fun free_var =>
    store_at_pivots (fun p => -(p.normal_vector.getD free_var 0))
      (R.planes.zip (indices_of_first_nonzero_terms_in_each_row R))
      ((List.replicate R.dimension (0 : ℚ)).set free_var 1))).getD k [] = _
  rw [List.getD_eq_getElem?_getD, List.getElem?_map, List.getElem?_eq_getElem hk,
    hgetD]
  rfl

/-- A direction vector has `1` at its own free variable. -/
theorem dir_vector_at_free (R : LinearSystem) (k : ℕ)
    (hk : k < (free_variable_indices R).length) :
    ((extract_direction_vectors_for_parametrization R).getD k []).getD
      ((free_variable_indices R).getD k 0) 0 = 1 := by
  have hf : (free_variable_indices R).getD k 0 ∈ free_variable_indices R := by
    rw [List.getD_eq_getElem?_getD, List.getElem?_eq_getElem hk]
    exact List.getElem_mem _
  obtain ⟨hfdim, hfnp⟩ := (mem_free_variable_indices R _).mp hf
  rw [extract_dirs_getD R k hk,
    store_untouched_R R _ _ _ hfnp,
    list_getD_set_self _ _ _ _ (by rw [List.length_replicate]; exact hfdim)]

/-- A direction vector has `-(coefficient at the free column)` at each
pivot row's pivot column. -/
theorem dir_vector_at_pivot (R : LinearSystem) (hfit : rowsFitDim R)
    (h3 : pivotStructureOK (indices_of_first_nonzero_terms_in_each_row R) = true)
    (k : ℕ) (hk : k < (free_variable_indices R).length) :
    ∀ i, i < R.planes.length → ∀ v : ℕ,
      (indices_of_first_nonzero_terms_in_each_row R).getD i (-1) = (v : ℤ) →
      ((extract_direction_vectors_for_parametrization R).getD k []).getD v 0 =
        -((R.planes.getD i default).normal_vector.getD
          ((free_variable_indices R).getD k 0) 0) := by
  intro i hi v hv
  rw [extract_dirs_getD R k hk]
  exact store_hit_R R hfit h3 _ _
    (by rw [List.length_set, List.length_replicate]) i hi v hv

/-- A direction vector is zero away from its free variable and the pivot
columns. -/
theorem dir_vector_at_other (R : LinearSystem) (k : ℕ)
    (hk : k < (free_variable_indices R).length) (c : ℕ)
    (hc : c ≠ (free_variable_indices R).getD k 0)
    (hnp : (indices_of_first_nonzero_terms_in_each_row R).contains (c : ℤ)
      = false) :
    ((extract_direction_vectors_for_parametrization R).getD k []).getD c 0
      = 0 := by
  rw [extract_dirs_getD R k hk, store_untouched_R R _ _ _ hnp,
    list_getD_set_ne _ _ _ _ _ (fun h => hc h.symm)]
  exact getD_replicate_zero _ _

/-- With as many distinct pivot columns as variables, no variable is free. -/
theorem free_variable_indices_nil (R : LinearSystem) (hfit : rowsFitDim R)
    (h2 : num_distinct_pivot_cols R = R.dimension) :
    free_variable_indices R = [] := by
  have hsub : ((indices_of_first_nonzero_terms_in_each_row R).filter
      (fun x => decide (0 ≤ x))).toFinset ⊆
      Finset.Ico (0 : ℤ) R.dimension := by
    intro x hx
    rw [List.mem_toFinset, List.mem_filter] at hx
    obtain ⟨hmem, hnn⟩ := hx
    have hnn' : 0 ≤ x := of_decide_eq_true hnn
    rw [indices_eq_map_pivotOf] at hmem
    obtain ⟨p, hp, hpx⟩ := List.mem_map.mp hmem
    obtain ⟨v, hv⟩ := Int.eq_ofNat_of_zero_le hnn'
    have hfni : first_nonzero_index p.normal_vector = .ok v :=
      pivotOf_nonneg_fni (by rw [hpx, hv])
    have hlt := fni_ok_lt _ _ hfni
    have hfit' := hfit p hp
    rw [Finset.mem_Ico]
    constructor
    · exact hnn'
    · rw [hv]
      exact_mod_cast (by omega : v < R.dimension)
  have hcard : ((indices_of_first_nonzero_terms_in_each_row R).filter
      (fun x => decide (0 ≤ x))).toFinset.card =
      (Finset.Ico (0 : ℤ) R.dimension).card := by
    have h1 : ((indices_of_first_nonzero_terms_in_each_row R).filter
        (fun x => decide (0 ≤ x))).toFinset.card =
        num_distinct_pivot_cols R := rfl
    rw [h1, h2, Int.card_Ico]
    simp
  have heq := Finset.eq_of_subset_of_card_le hsub (le_of_eq hcard.symm)
  have hall : ∀ v : ℕ, v < R.dimension →
      (v : ℤ) ∈ indices_of_first_nonzero_terms_in_each_row R := by
    intro v hv
    have hico : (v : ℤ) ∈ Finset.Ico (0 : ℤ) R.dimension := by
      rw [Finset.mem_Ico]
      constructor
      · positivity
      · exact_mod_cast hv
    rw [← heq, List.mem_toFinset, List.mem_filter] at hico
    exact hico.1
  unfold free_variable_indices
  rw [List.filter_eq_nil_iff]
  intro v hv
  rw [List.mem_range] at hv
  simp only [Bool.not_eq_true', Bool.not_eq_false]
  exact List.elem_eq_true_of_mem (hall v hv)

/-- Equality on `Except` results is decidable componentwise. -/
instance exceptDecEq {e a : Type _} [DecidableEq e] [DecidableEq a] :
    DecidableEq (Except e a) := fun x y =>
  match x, y with
  | .ok u, .ok v =>
    if h : u = v then .isTrue (by rw [h])
    else .isFalse (by intro hc; injection hc; contradiction)
  | .error u, .error v =>
    if h : u = v then .isTrue (by rw [h])
    else .isFalse (by intro hc; injection hc; contradiction)
  | .ok _, .error _ => .isFalse (by intro hc; cases hc)
  | .error _, .ok _ => .isFalse (by intro hc; cases hc)

/-! ## Claim theorems: C1 and C6 -/

theorem compute_solution_param (s : LinearSystem)
    (h1 : has_contradictory_row (compute_rref s) = false) :
    compute_solution s = .ok (.param
      ⟨extract_basepoint_for_parametrization (compute_rref s),
       extract_direction_vectors_for_parametrization (compute_rref s)⟩) := by
  have hscan : raise_exception_if_contradictory_equation (compute_rref s) =
      .ok () := contradictory_scan_ok _ h1
  have hdg : do_gaussian_elminitation_and_parametrize_solution s = .ok
      ⟨extract_basepoint_for_parametrization (compute_rref s),
       extract_direction_vectors_for_parametrization (compute_rref s)⟩ := by
    simp only [do_gaussian_elminitation_and_parametrize_solution, hscan]
  simp [compute_solution, hdg]

/-- A system on which the near-zero tolerance reorders pivots: the `9e-11`
entry is treated as no pivot, and elimination with `alpha = -100000`
amplifies it into a non-near-zero coefficient in a lower row. -/
def pathologicalSystem : LinearSystem :=
  ⟨[⟨[9 / 10 ^ 11, 1], 1⟩, ⟨[0, 1], 1⟩,
    ⟨[0, 100000], 100000 + 9 / 10 ^ 6⟩], 2⟩

/-- C1 as stated is false: on `pathologicalSystem` the reduced form has no
contradictory row and its distinct pivot columns number the dimension, yet
`compute_solution` returns a `Parametrization`, not a solution `Vector` —
and its basepoint coordinate at variable `0` is `0`, not the constant term
`-1` of the row whose pivot column is `0`. -/
theorem claim_C1_counterexample :
    wellFormed pathologicalSystem = true ∧
    has_contradictory_row (compute_rref pathologicalSystem) = false ∧
    num_distinct_pivot_cols (compute_rref pathologicalSystem) =
      (compute_rref pathologicalSystem).dimension ∧
    resultIsVector (compute_solution pathologicalSystem) = false ∧
    compute_solution pathologicalSystem =
      .ok (.param ⟨[0, 1 + 9 / 10 ^ 11], []⟩) ∧
    indices_of_first_nonzero_terms_in_each_row
      (compute_rref pathologicalSystem) = [1, -1, 0] ∧
    ((compute_rref pathologicalSystem).planes.getD 2 default).constant_term
      = -1 ∧
    (extract_basepoint_for_parametrization
      (compute_rref pathologicalSystem)).getD 0 0 ≠ -1 := by
  decide

/-- C1 (amended): where the original claim promised a unique solution
`Vector`, the exercised code path returns a `Parametrization` with an empty
direction-vector list; and reading the basepoint off the rows is faithful
only when the reduced form's rows are echelon-ordered (pivot rows first,
with strictly increasing pivot columns) — a hypothesis the counterexample
shows cannot be dropped.  Under it: when the reduced form has no
contradictory row and its distinct pivot columns number the dimension,
`compute_solution` returns a `Parametrization` with no direction vectors
whose basepoint coordinate at every variable index equals the constant
term of the unique row whose pivot column is that index. -/
theorem claim_C1_amended (s R : LinearSystem)
    (h0 : wellFormed s = true)
    (hR : R = compute_rref s)
    (h1 : has_contradictory_row R = false)
    (h2 : num_distinct_pivot_cols R = R.dimension)
    (h3 : pivotStructureOK (indices_of_first_nonzero_terms_in_each_row R)
      = true) :
    compute_solution s =
      .ok (.param ⟨extract_basepoint_for_parametrization R, []⟩) ∧
    (∀ v : ℕ, v < R.dimension → ∃ i, i < R.planes.length ∧
      (indices_of_first_nonzero_terms_in_each_row R).getD i (-1) = (v : ℤ)) ∧
    (∀ i, i < R.planes.length → ∀ v : ℕ,
      (indices_of_first_nonzero_terms_in_each_row R).getD i (-1) = (v : ℤ) →
      (extract_basepoint_for_parametrization R).getD v 0 =
        (R.planes.getD i default).constant_term) := by
  subst hR
  have hfitR : rowsFitDim (compute_rref s) :=
    rowsFitDim_compute_rref (rowsFitDim_of_wellFormed s h0)
  have hfree : free_variable_indices (compute_rref s) = [] :=
    free_variable_indices_nil _ hfitR h2
  have hdirs : extract_direction_vectors_for_parametrization (compute_rref s)
      = [] := by
    show (free_variable_indices (compute_rref s)).map _ = []
    rw [hfree]
    rfl
  refine ⟨?_, ?_, extract_basepoint_hit _ hfitR h3⟩
  · rw [← hdirs]
    exact compute_solution_param s h1
  · intro v hv
    have hmem : (v : ℤ) ∈ indices_of_first_nonzero_terms_in_each_row
        (compute_rref s) := by
      have := List.filter_eq_nil_iff.mp hfree v (List.mem_range.mpr hv)
      simp only [Bool.not_eq_true', Bool.not_eq_false] at this
      exact List.mem_of_elem_eq_true this
    obtain ⟨i, hilen, hIv⟩ := List.getElem_of_mem hmem
    refine ⟨i, by rw [indices_length] at hilen; exact hilen, ?_⟩
    rw [List.getD_eq_getElem?_getD, List.getElem?_eq_getElem hilen, hIv]
    rfl

/-- Witness for the amended C1 on the determined system
`{x + y = 3, y = 2}`. -/
theorem claim_C1_amended_witness :
    wellFormed (LinearSystem.mk [⟨[1, 1], 3⟩, ⟨[0, 1], 2⟩] 2) = true ∧
    has_contradictory_row
      (compute_rref (LinearSystem.mk [⟨[1, 1], 3⟩, ⟨[0, 1], 2⟩] 2)) = false ∧
    num_distinct_pivot_cols
        (compute_rref (LinearSystem.mk [⟨[1, 1], 3⟩, ⟨[0, 1], 2⟩] 2)) =
      (compute_rref (LinearSystem.mk [⟨[1, 1], 3⟩, ⟨[0, 1], 2⟩] 2)).dimension ∧
    pivotStructureOK (indices_of_first_nonzero_terms_in_each_row
      (compute_rref (LinearSystem.mk [⟨[1, 1], 3⟩, ⟨[0, 1], 2⟩] 2))) = true ∧
    compute_solution (LinearSystem.mk [⟨[1, 1], 3⟩, ⟨[0, 1], 2⟩] 2) =
      .ok (.param ⟨[1, 2], []⟩) := by
  have h := claim_C1_amended (LinearSystem.mk [⟨[1, 1], 3⟩, ⟨[0, 1], 2⟩] 2)
    (compute_rref (LinearSystem.mk [⟨[1, 1], 3⟩, ⟨[0, 1], 2⟩] 2))
    (by decide) rfl (by decide) (by decide) (by decide)
  exact ⟨by decide, by decide, by decide, by decide, h.1.trans (by decide)⟩

/-- The pathological system with all constant terms halved (to keep the
tiny residue inside the near-zero tolerance). -/
def pathologicalSystemHalf : LinearSystem :=
  ⟨[⟨[9 / 10 ^ 11, 1], 1 / 2⟩, ⟨[0, 1], 1 / 2⟩,
    ⟨[0, 100000], 50000 + 9 / (2 * 10 ^ 6)⟩], 2⟩

/-- C6 as stated is false: the reduced form of `pathologicalSystemHalf` has
no contradictory row, its row of pivot column `0` (row 2) has constant term
`-1/2`, yet the parametrization's basepoint coordinate `0` is `0` — the
extraction loop's early break on the pivotless row 1 skips row 2. -/
theorem claim_C6_counterexample :
    has_contradictory_row (compute_rref pathologicalSystemHalf) = false ∧
    compute_solution pathologicalSystemHalf =
      .ok (.param ⟨extract_basepoint_for_parametrization
        (compute_rref pathologicalSystemHalf), []⟩) ∧
    indices_of_first_nonzero_terms_in_each_row
      (compute_rref pathologicalSystemHalf) = [1, -1, 0] ∧
    ((compute_rref pathologicalSystemHalf).planes.getD 2 default).constant_term
      = -(1 / 2) ∧
    (extract_basepoint_for_parametrization
      (compute_rref pathologicalSystemHalf)).getD 0 0 = 0 ∧
    (extract_basepoint_for_parametrization
        (compute_rref pathologicalSystemHalf)).getD 0 0 ≠
      ((compute_rref pathologicalSystemHalf).planes.getD 2 default).constant_term
    := by
  decide

/-- C6 (amended): with the reduced form's rows echelon-ordered (pivot rows
first, strictly increasing pivot columns — the hypothesis the
counterexample shows cannot be dropped), for every system whose reduced
form has no contradictory row the parametrization returned by
`compute_solution` satisfies the claim: free variables are exactly the
indices below the dimension that are no row's pivot column, listed in
ascending order; each free variable's direction vector carries `1` at the
free variable, minus the pivot row's coefficient at the free column at
each pivot column, and `0` elsewhere; the basepoint carries each pivot
row's constant term at its pivot column and `0` at every other
coordinate. -/
theorem claim_C6_amended (s R : LinearSystem)
    (h0 : wellFormed s = true)
    (hR : R = compute_rref s)
    (h1 : has_contradictory_row R = false)
    (h3 : pivotStructureOK (indices_of_first_nonzero_terms_in_each_row R)
      = true) :
    compute_solution s = .ok (.param
      ⟨extract_basepoint_for_parametrization R,
       extract_direction_vectors_for_parametrization R⟩) ∧
    List.Pairwise (· < ·) (free_variable_indices R) ∧
    (∀ f : ℕ, f ∈ free_variable_indices R ↔ f < R.dimension ∧
      (indices_of_first_nonzero_terms_in_each_row R).contains (f : ℤ)
        = false) ∧
    (extract_direction_vectors_for_parametrization R).length =
      (free_variable_indices R).length ∧
    (∀ k, k < (free_variable_indices R).length →
      ((extract_direction_vectors_for_parametrization R).getD k []).getD
        ((free_variable_indices R).getD k 0) 0 = 1 ∧
      (∀ i, i < R.planes.length → ∀ v : ℕ,
        (indices_of_first_nonzero_terms_in_each_row R).getD i (-1) = (v : ℤ) →
        ((extract_direction_vectors_for_parametrization R).getD k []).getD
          v 0 =
          -((R.planes.getD i default).normal_vector.getD
            ((free_variable_indices R).getD k 0) 0)) ∧
      (∀ c : ℕ, c ≠ (free_variable_indices R).getD k 0 →
        (indices_of_first_nonzero_terms_in_each_row R).contains (c : ℤ)
          = false →
        ((extract_direction_vectors_for_parametrization R).getD k []).getD
          c 0 = 0)) ∧
    (∀ i, i < R.planes.length → ∀ v : ℕ,
      (indices_of_first_nonzero_terms_in_each_row R).getD i (-1) = (v : ℤ) →
      (extract_basepoint_for_parametrization R).getD v 0 =
        (R.planes.getD i default).constant_term) ∧
    (∀ c : ℕ,
      (indices_of_first_nonzero_terms_in_each_row R).contains (c : ℤ)
        = false →
      (extract_basepoint_for_parametrization R).getD c 0 = 0) := by
  have hfitR : rowsFitDim R := by
    rw [hR]
    exact rowsFitDim_compute_rref (rowsFitDim_of_wellFormed s h0)
  refine ⟨?_, free_variable_indices_sorted R, mem_free_variable_indices R,
    extract_dirs_length R, ?_, extract_basepoint_hit R hfitR h3,
    extract_basepoint_zero R⟩
  · rw [hR]
    exact compute_solution_param s (hR ▸ h1)
  · intro k hk
    exact ⟨dir_vector_at_free R k hk, dir_vector_at_pivot R hfitR h3 k hk,
      dir_vector_at_other R k hk⟩

/-- Witness for the amended C6 on the spec's example `{x+y+z=1, y+z=2}`:
basepoint `(-1, 2, 0)` and single direction vector `(0, -1, 1)`. -/
theorem claim_C6_amended_witness :
    wellFormed (LinearSystem.mk [⟨[1, 1, 1], 1⟩, ⟨[0, 1, 1], 2⟩] 3) = true ∧
    has_contradictory_row (compute_rref
      (LinearSystem.mk [⟨[1, 1, 1], 1⟩, ⟨[0, 1, 1], 2⟩] 3)) = false ∧
    pivotStructureOK (indices_of_first_nonzero_terms_in_each_row (compute_rref
      (LinearSystem.mk [⟨[1, 1, 1], 1⟩, ⟨[0, 1, 1], 2⟩] 3))) = true ∧
    compute_solution (LinearSystem.mk [⟨[1, 1, 1], 1⟩, ⟨[0, 1, 1], 2⟩] 3) =
      .ok (.param ⟨[-1, 2, 0], [[0, -1, 1]]⟩) ∧
    List.Pairwise (· < ·) (free_variable_indices (compute_rref
      (LinearSystem.mk [⟨[1, 1, 1], 1⟩, ⟨[0, 1, 1], 2⟩] 3))) := by
  have h := claim_C6_amended (LinearSystem.mk [⟨[1, 1, 1], 1⟩, ⟨[0, 1, 1], 2⟩] 3)
    (compute_rref (LinearSystem.mk [⟨[1, 1, 1], 1⟩, ⟨[0, 1, 1], 2⟩] 3))
    (by decide) rfl (by decide) (by decide)
  exact ⟨by decide, by decide, by decide, h.1.trans (by decide), h.2.1⟩

/-! ## No-op lemmas for already-reduced systems -/

theorem zipWith_zero_smul :
    ∀ (n2 n1 : List ℚ), n2.length ≤ n1.length →
      List.zipWith (· + ·) (n1.map (fun x => (0 : ℚ) * x)) n2 = n2 := by
  intro n2
  induction n2 with
  | nil => intro n1 _; simp
  | cons b bs ih =>
    intro n1 hlen
    cases n1 with
    | nil => simp at hlen
    | cons a as =>
      simp only [List.map_cons, List.zipWith_cons_cons, List.cons.injEq]
      constructor
      · ring
      · exact ih as (by simpa using hlen)

theorem add_zero_noop (s : LinearSystem) (f t : ℕ)
    (hlen : (getRow s t).normal_vector.length ≤ (getRow s f).normal_vector.length)
    (ht : t < s.planes.length) :
    add_multiple_times_row_to_row s 0 f t = s := by
  have hrow : (⟨vplus (times_scalar (getRow s f).normal_vector 0)
        (getRow s t).normal_vector,
      (getRow s f).constant_term * 0 + (getRow s t).constant_term⟩ : Hyperplane)
      = getRow s t := by
    have h1 : vplus (times_scalar (getRow s f).normal_vector 0)
        (getRow s t).normal_vector = (getRow s t).normal_vector := by
      unfold vplus times_scalar
      exact zipWith_zero_smul _ _ hlen
    have h2 : (getRow s f).constant_term * 0 + (getRow s t).constant_term
        = (getRow s t).constant_term := by ring
    rw [h1, h2]
  show LinearSystem.mk (s.planes.set t _) s.dimension = s
  rw [hrow]
  show LinearSystem.mk (s.planes.set t (s.planes.getD t default)) s.dimension = s
  rw [list_set_getD_self s.planes t default ht]

theorem multiply_one_noop (s : LinearSystem) (r : ℕ) (hr : r < s.planes.length) :
    multiply_coefficient_and_row s 1 r = s := by
  have hrow : (⟨times_scalar (getRow s r).normal_vector 1,
      (getRow s r).constant_term * 1⟩ : Hyperplane) = getRow s r := by
    have h1 : times_scalar (getRow s r).normal_vector 1
        = (getRow s r).normal_vector := by
      unfold times_scalar
      exact List.map_id'' (fun x => one_mul x) _
    have h2 : (getRow s r).constant_term * 1 = (getRow s r).constant_term :=
      mul_one _
    rw [h1, h2]
  show LinearSystem.mk (s.planes.set r _) s.dimension = s
  rw [hrow]
  show LinearSystem.mk (s.planes.set r (s.planes.getD r default)) s.dimension = s
  rw [list_set_getD_self s.planes r default hr]

theorem clear_below_go_noop (row col : ℕ) (beta : ℚ) :
    ∀ (fuel k : ℕ) (s : LinearSystem),
      k + fuel ≤ s.planes.length →
      (∀ m, k ≤ m → m < k + fuel → coeff s m col = 0) →
      (∀ m, m < s.planes.length →
        (getRow s m).normal_vector.length ≤
          (getRow s row).normal_vector.length) →
      clear_below_go s row col beta k fuel = s := by
  intro fuel
  induction fuel with
  | zero => intro k s _ _ _; rfl
  | succ f ih =>
    intro k s hfuel hz hlen
    have hk : coeff s k col = 0 := hz k (le_refl k) (by omega)
    have step : clear_below_go s row col beta k (f + 1) =
        clear_below_go (add_multiple_times_row_to_row s
          (-(coeff s k col) / beta) row k) row col beta (k + 1) f := rfl
    rw [step, hk]
    have hzero : -(0 : ℚ) / beta = 0 := by simp
    rw [hzero, add_zero_noop s row k (hlen k (by omega)) (by omega)]
    exact ih (k + 1) s (by omega) (fun m hm1 hm2 => hz m (by omega) (by omega))
      hlen

theorem clear_coefficients_below_noop (s : LinearSystem) (row col : ℕ)
    (hrow : row < s.planes.length)
    (hz : ∀ m, row < m → m < s.planes.length → coeff s m col = 0)
    (hlen : ∀ m, m < s.planes.length →
      (getRow s m).normal_vector.length ≤ (getRow s row).normal_vector.length) :
    clear_coefficients_below s row col = s := by
  unfold clear_coefficients_below
  exact clear_below_go_noop row col _ _ (row + 1) s (by omega)
    (fun m hm1 hm2 => hz m (by omega) (by omega)) hlen

theorem swap_search_fails (row col : ℕ) :
    ∀ (fuel k : ℕ) (s : LinearSystem),
      (∀ m, k ≤ m → is_near_zero (coeff s m col) = true) →
      swap_search s row col k fuel = (s, false) := by
  intro fuel
  induction fuel with
  | zero => intro k s _; rfl
  | succ f ih =>
    intro k s hnz
    simp only [swap_search, hnz k (le_refl k), if_true]
    exact ih (k + 1) s (fun m hm => hnz m (by omega))

theorem clear_above_go_noop (row col : ℕ) :
    ∀ (k : ℕ) (s : LinearSystem),
      k ≤ s.planes.length →
      (∀ m, m < k → coeff s m col = 0) →
      (∀ m, m < s.planes.length →
        (getRow s m).normal_vector.length ≤
          (getRow s row).normal_vector.length) →
      clear_above_go s row col k = s := by
  intro k
  induction k with
  | zero => intro s _ _ _; rfl
  | succ n ih =>
    intro s hk hz hlen
    have step : clear_above_go s row col (n + 1) =
        clear_above_go (add_multiple_times_row_to_row s (-(coeff s n col))
          row n) row col n := rfl
    rw [step, hz n (by omega)]
    have hzero : -(0 : ℚ) = 0 := by simp
    rw [hzero, add_zero_noop s row n (hlen n (by omega)) (by omega)]
    exact ih s (by omega) (fun m hm => hz m (by omega)) hlen

/-! ## A reduced system is a fixpoint of `compute_rref` -/

/-- The pivot column of row `i`, read off the pivot-index list. -/
def nni (R : LinearSystem) (i : ℕ) : ℤ :=
  (indices_of_first_nonzero_terms_in_each_row R).getD i (-1)

/-- Every pivot row has coefficient exactly `1` at its pivot column and
every other row has coefficient exactly `0` there. -/
def unitPivots (R : LinearSystem) : Bool :=
  (List.range R.planes.length).all (fun i =>
    match first_nonzero_index (getRow R i).normal_vector with
    | .error _ => true
    | .ok v =>
      decide (coeff R i v = 1) &&
      (List.range R.planes.length).all (fun k =>
        decide (k = i) || decide (coeff R k v = 0)))

theorem getRow_eq_getElem (s : LinearSystem) (i : ℕ)
    (hi : i < s.planes.length) : getRow s i = s.planes[i] :=
  getRow_eq_of_getElem? s i _ (List.getElem?_eq_getElem hi)

theorem getRow_mem (s : LinearSystem) (i : ℕ) (hi : i < s.planes.length) :
    getRow s i ∈ s.planes := by
  rw [getRow_eq_getElem s i hi]
  exact List.getElem_mem _

theorem wellFormed_getRow_len {s : LinearSystem} (hW : wellFormed s = true)
    (i : ℕ) (hi : i < s.planes.length) :
    (getRow s i).normal_vector.length = s.dimension := by
  have := List.all_eq_true.mp hW _ (getRow_mem s i hi)
  simpa using this

theorem all_near_zero_getD (l : List ℚ) (h : l.all is_near_zero = true)
    (c : ℕ) : is_near_zero (l.getD c 0) = true := by
  rw [List.getD_eq_getElem?_getD]
  cases hc : l[c]? with
  | none => exact is_near_zero_zero
  | some x => exact List.all_eq_true.mp h x (List.getElem?_mem hc)

theorem nni_eq_pivotOf (R : LinearSystem) (i : ℕ) (hi : i < R.planes.length) :
    nni R i = pivotOf (getRow R i) := by
  unfold nni
  rw [indices_getD_eq R i (-1) hi, getRow_eq_getElem R i hi]

theorem nni_nonneg_fni (R : LinearSystem) (i : ℕ) (hi : i < R.planes.length)
    (v : ℕ) (hv : nni R i = (v : ℤ)) :
    first_nonzero_index (getRow R i).normal_vector = .ok v := by
  rw [nni_eq_pivotOf R i hi] at hv
  exact pivotOf_nonneg_fni hv

theorem nni_neg_all_near_zero (R : LinearSystem) (i : ℕ)
    (hi : i < R.planes.length) (hneg : nni R i < 0) :
    ∀ c, is_near_zero (coeff R i c) = true := by
  intro c
  rw [nni_eq_pivotOf R i hi] at hneg
  unfold pivotOf at hneg
  cases hfni : first_nonzero_index (getRow R i).normal_vector with
  | ok k => rw [hfni] at hneg; simp at hneg; omega
  | error e =>
    exact all_near_zero_getD _ (fni_error_all_near_zero _ _ hfni) c

theorem nni_mono (R : LinearSystem)
    (hS : pivotStructureOK (indices_of_first_nonzero_terms_in_each_row R)
      = true) :
    ∀ i k, i < k → k < R.planes.length → 0 ≤ nni R k →
      0 ≤ nni R i ∧ nni R i < nni R k := by
  intro i k hik hk hknn
  have hklen : k < (indices_of_first_nonzero_terms_in_each_row R).length := by
    rw [indices_length]; exact hk
  have hilen : i < (indices_of_first_nonzero_terms_in_each_row R).length := by
    omega
  have hgi : nni R i = (indices_of_first_nonzero_terms_in_each_row R)[i] := by
    unfold nni
    rw [List.getD_eq_getElem?_getD, List.getElem?_eq_getElem hilen]
    rfl
  have hgk : nni R k = (indices_of_first_nonzero_terms_in_each_row R)[k] := by
    unfold nni
    rw [List.getD_eq_getElem?_getD, List.getElem?_eq_getElem hklen]
    rfl
  have := pivotStructureOK_nonneg_front hS k hklen (by rw [← hgk]; exact hknn)
    i hik
  rw [← hgi, ← hgk] at this
  exact this

theorem unitPivots_spec (R : LinearSystem) (hU : unitPivots R = true)
    (i : ℕ) (hi : i < R.planes.length) (v : ℕ)
    (hfni : first_nonzero_index (getRow R i).normal_vector = .ok v) :
    coeff R i v = 1 ∧ ∀ k, k < R.planes.length → k ≠ i → coeff R k v = 0 := by
  have hrow := List.all_eq_true.mp hU i (List.mem_range.mpr hi)
  rw [hfni] at hrow
  simp only [Bool.and_eq_true, decide_eq_true_eq, List.all_eq_true] at hrow
  refine ⟨hrow.1, ?_⟩
  intro k hk hki
  have := hrow.2 k (List.mem_range.mpr hk)
  simp only [Bool.or_eq_true, decide_eq_true_eq] at this
  rcases this with h | h
  · exact absurd h hki
  · exact h

theorem tf_while_nice_pivot (R : LinearSystem) (i v : ℕ)
    (hi : i < R.planes.length)
    (hv1 : is_near_zero (coeff R i v) = false)
    (hvdim : v < R.dimension)
    (hbelow0 : ∀ k, i < k → k < R.planes.length → coeff R k v = 0)
    (hlen : ∀ m, m < R.planes.length →
      (getRow R m).normal_vector.length ≤ (getRow R i).normal_vector.length)
    (hnear : ∀ c, c < v → ∀ k, i ≤ k → is_near_zero (coeff R k c) = true) :
    ∀ (d j : ℕ), v - j = d → j ≤ v →
      tf_while R i j (R.dimension - j) = (R, v + 1) := by
  intro d
  induction d with
  | zero =>
    intro j hd hj
    have hjv : j = v := by omega
    subst hjv
    have hfuel : R.dimension - j = (R.dimension - (j + 1)) + 1 := by omega
    rw [hfuel]
    simp only [tf_while, hv1]
    rw [if_neg (by simp)]
    rw [clear_coefficients_below_noop R i j hi (hbelow0) hlen]
  | succ d ih =>
    intro j hd hj
    have hjv : j < v := by omega
    have hfuel : R.dimension - j = (R.dimension - (j + 1)) + 1 := by omega
    rw [hfuel]
    have hnzj : is_near_zero (coeff R i j) = true := hnear j hjv i (le_refl i)
    simp only [tf_while, hnzj, if_true]
    have hswap : swap_with_row_below R i j = (R, false) := by
      unfold swap_with_row_below
      exact swap_search_fails i j _ (i + 1) R
        (fun m hm => hnear j hjv m (by omega))
    rw [hswap]
    exact ih (j + 1) (by omega) (by omega)

theorem tf_while_all_skip (R : LinearSystem) (i : ℕ)
    (hnear : ∀ k, i ≤ k → ∀ c, is_near_zero (coeff R k c) = true) :
    ∀ (d j : ℕ), R.dimension - j = d → j ≤ R.dimension →
      tf_while R i j d = (R, R.dimension) := by
  intro d
  induction d with
  | zero =>
    intro j hd hj
    have : j = R.dimension := by omega
    rw [this]
    rfl
  | succ d ih =>
    intro j hd hj
    simp only [tf_while, hnear i (le_refl i) j, if_true]
    have hswap : swap_with_row_below R i j = (R, false) := by
      unfold swap_with_row_below
      exact swap_search_fails i j _ (i + 1) R
        (fun m hm => hnear m (by omega) j)
    rw [hswap]
    exact ih (j + 1) (by omega) (by omega)

theorem tf_rows_nice (R : LinearSystem)
    (hW : wellFormed R = true)
    (hS : pivotStructureOK (indices_of_first_nonzero_terms_in_each_row R)
      = true)
    (hU : unitPivots R = true) :
    ∀ (fuel i j : ℕ), fuel = R.planes.length - i → i ≤ R.planes.length →
      j ≤ R.dimension →
      (∀ k, i ≤ k → k < R.planes.length → 0 ≤ nni R k → (j : ℤ) ≤ nni R k) →
      tf_rows R.dimension R i j fuel = R := by
  intro fuel
  induction fuel with
  | zero => intro i j _ _ _ _; rfl
  | succ f ih =>
    intro i j hfuel hile hj hcursor
    have hi : i < R.planes.length := by omega
    rcases Int.lt_or_le (nni R i) 0 with hneg | hnn
    · -- row i (and every later row) is pivotless: the cursor runs out
      have hallz : ∀ k, i ≤ k → ∀ c, is_near_zero (coeff R k c) = true := by
        intro k hk c
        rcases Nat.lt_or_ge k R.planes.length with hklt | hkge
        · rcases Int.lt_or_le (nni R k) 0 with hkneg | hknn
          · exact nni_neg_all_near_zero R k hklt hkneg c
          · rcases Nat.lt_or_ge i k with hik | hik
            · have := (nni_mono R hS i k hik hklt hknn).1
              omega
            · have : k = i := by omega
              subst this
              omega
        · rw [coeff_out_of_range R k c hkge]
          exact is_near_zero_zero
      have hwhile := tf_while_all_skip R i hallz (R.dimension - j) j rfl hj
      simp only [tf_rows, hwhile]
      exact ih (i + 1) R.dimension (by omega) (by omega) (le_refl _)
        (by
          intro k hk hklen hknn
          exfalso
          have hik : i < k := by omega
          have := (nni_mono R hS i k hik hklen hknn).1
          omega)
    · -- row i is a pivot row: the cursor walks to its pivot and eliminates
      obtain ⟨v, hv⟩ := Int.eq_ofNat_of_zero_le hnn
      have hfni := nni_nonneg_fni R i hi v hv
      have hspec := fni_ok_spec _ _ hfni
      have hv1 : is_near_zero (coeff R i v) = false := hspec.2
      have hvlen := fni_ok_lt _ _ hfni
      have hvdim : v < R.dimension := by
        have := wellFormed_getRow_len hW i hi
        omega
      have hbelow0 : ∀ k, i < k → k < R.planes.length → coeff R k v = 0 := by
        intro k hk hklen
        exact (unitPivots_spec R hU i hi v hfni).2 k hklen (by omega)
      have hlen : ∀ m, m < R.planes.length →
          (getRow R m).normal_vector.length ≤
            (getRow R i).normal_vector.length := by
        intro m hm
        rw [wellFormed_getRow_len hW m hm, wellFormed_getRow_len hW i hi]
      have hnear : ∀ c, c < v → ∀ k, i ≤ k →
          is_near_zero (coeff R k c) = true := by
        intro c hc k hk
        rcases Nat.lt_or_ge k R.planes.length with hklt | hkge
        · rcases Int.lt_or_le (nni R k) 0 with hkneg | hknn
          · exact nni_neg_all_near_zero R k hklt hkneg c
          · obtain ⟨w, hw⟩ := Int.eq_ofNat_of_zero_le hknn
            have hfnik := nni_nonneg_fni R k hklt w hw
            have hspeck := fni_ok_spec _ _ hfnik
            rcases Nat.lt_or_ge i k with hik | hik
            · have hmono := (nni_mono R hS i k hik hklt hknn).2
              rw [hv, hw] at hmono
              have hvw : v < w := by exact_mod_cast hmono
              exact hspeck.1 c (by omega)
            · have : k = i := by omega
              subst this
              exact hspec.1 c hc
        · rw [coeff_out_of_range R k c hkge]
          exact is_near_zero_zero
      have hjv : j ≤ v := by
        have := hcursor i (le_refl i) hi hnn
        rw [hv] at this
        exact_mod_cast this
      have hwhile := tf_while_nice_pivot R i v hi hv1 hvdim hbelow0 hlen hnear
        (v - j) j rfl hjv
      simp only [tf_rows, hwhile]
      refine ih (i + 1) (v + 1) (by omega) (by omega) (by omega) ?_
      intro k hk hklen hknn
      have hik : i < k := by omega
      have hmono := (nni_mono R hS i k hik hklen hknn).2
      rw [hv] at hmono
      push_cast
      omega

theorem compute_triangular_form_nice (R : LinearSystem)
    (hW : wellFormed R = true)
    (hS : pivotStructureOK (indices_of_first_nonzero_terms_in_each_row R)
      = true)
    (hU : unitPivots R = true) :
    compute_triangular_form R = R := by
  unfold compute_triangular_form
  exact tf_rows_nice R hW hS hU R.planes.length 0 0 (by omega) (by omega)
    (by omega) (fun k _ _ h => by omega)

theorem rref_go_nice (R : LinearSystem)
    (hW : wellFormed R = true)
    (hU : unitPivots R = true) :
    ∀ cnt, cnt ≤ R.planes.length →
      rref_go (indices_of_first_nonzero_terms_in_each_row R) R cnt = R := by
  intro cnt
  induction cnt with
  | zero => intro _; rfl
  | succ i ih =>
    intro hcnt
    have hi : i < R.planes.length := by omega
    simp only [rref_go]
    split
    · exact ih (by omega)
    next hnneg =>
      have hnn : 0 ≤ nni R i := by
        unfold nni
        omega
      obtain ⟨v, hv⟩ := Int.eq_ofNat_of_zero_le hnn
      have hfni := nni_nonneg_fni R i hi v hv
      have hunit := unitPivots_spec R hU i hi v hfni
      have htn : ((indices_of_first_nonzero_terms_in_each_row R).getD i
          (-1)).toNat = v := by
        show (nni R i).toNat = v
        rw [hv]
        exact Int.toNat_natCast v
      rw [htn]
      have hscale : scale_row_to_make_coefficient_equal_one R i v = R := by
        unfold scale_row_to_make_coefficient_equal_one
        rw [hunit.1]
        norm_num
        exact multiply_one_noop R i hi
      rw [hscale]
      have hclear : clear_coefficients_above R i v = R := by
        unfold clear_coefficients_above
        refine clear_above_go_noop i v i R (by omega) ?_ ?_
        · intro m hm
          exact hunit.2 m (by omega) (by omega)
        · intro m hm
          rw [wellFormed_getRow_len hW m hm, wellFormed_getRow_len hW i hi]
      rw [hclear]
      exact ih (by omega)

/-- A well-formed, echelon-ordered system with unit pivot columns is a
fixpoint of `compute_rref`. -/
theorem compute_rref_nice (R : LinearSystem)
    (hW : wellFormed R = true)
    (hS : pivotStructureOK (indices_of_first_nonzero_terms_in_each_row R)
      = true)
    (hU : unitPivots R = true) :
    compute_rref R = R := by
  unfold compute_rref
  rw [compute_triangular_form_nice R hW hS hU]
  exact rref_go_nice R hW hU R.planes.length (le_refl _)

/-- C8 as stated is false: reducing `pathologicalSystem` twice does not
reproduce the single reduction even within the `1e-10` tolerance — the
second pass swaps the tolerance-disordered rows, so row 0's leading
coordinate changes from `0` to `1`. -/
theorem claim_C8_counterexample :
    ((compute_rref (compute_rref pathologicalSystem)).planes.getD 0
      default).normal_vector.getD 0 0 = 1 ∧
    ((compute_rref pathologicalSystem).planes.getD 0
      default).normal_vector.getD 0 0 = 0 ∧
    ¬(|((compute_rref (compute_rref pathologicalSystem)).planes.getD 0
          default).normal_vector.getD 0 0 -
        ((compute_rref pathologicalSystem).planes.getD 0
          default).normal_vector.getD 0 0| < nearZeroEps) := by
  decide

/-- C8 (amended): reduction is idempotent on every system whose reduced
form is well-formed, echelon-ordered (pivot rows first with strictly
increasing pivot columns) and has unit pivot columns (pivot coefficient
exactly `1`, exact `0` elsewhere in each pivot column) — conditions the
counterexample's tolerance-disordered reduced form violates.  The second
reduction then reproduces the first exactly, in particular within the
`1e-10` tolerance. -/
theorem claim_C8_amended (s R : LinearSystem)
    (hR : R = compute_rref s)
    (hW : wellFormed R = true)
    (hS : pivotStructureOK (indices_of_first_nonzero_terms_in_each_row R)
      = true)
    (hU : unitPivots R = true) :
    compute_rref (compute_rref s) = compute_rref s := by
  subst hR
  exact compute_rref_nice _ hW hS hU

/-- Witness for the amended C8 on `{x + y = 3, y = 2}`. -/
theorem claim_C8_amended_witness :
    wellFormed (compute_rref (LinearSystem.mk [⟨[1, 1], 3⟩, ⟨[0, 1], 2⟩] 2))
      = true ∧
    pivotStructureOK (indices_of_first_nonzero_terms_in_each_row
      (compute_rref (LinearSystem.mk [⟨[1, 1], 3⟩, ⟨[0, 1], 2⟩] 2))) = true ∧
    unitPivots (compute_rref (LinearSystem.mk [⟨[1, 1], 3⟩, ⟨[0, 1], 2⟩] 2))
      = true ∧
    compute_rref (compute_rref (LinearSystem.mk [⟨[1, 1], 3⟩, ⟨[0, 1], 2⟩] 2))
      = compute_rref (LinearSystem.mk [⟨[1, 1], 3⟩, ⟨[0, 1], 2⟩] 2) :=
  ⟨by decide, by decide, by decide,
    claim_C8_amended (LinearSystem.mk [⟨[1, 1], 3⟩, ⟨[0, 1], 2⟩] 2) _ rfl
      (by decide) (by decide) (by decide)⟩

/-! ## The watched forward pass (C10) -/

/-- A coefficient that is exactly zero or not near-zero: the near-zero
band hides no stray values. -/
def zeroOrBig (c : ℚ) : Bool := decide (c = 0) || !(is_near_zero c)

/-- Every normal-vector coefficient of the system is zero-or-big. -/
def allCoeffsZeroOrBig (s : LinearSystem) : Bool :=
  s.planes.all (fun p => p.normal_vector.all zeroOrBig)

/-- The forward pass, watched: before each row is processed (and once at
the end) the system's coefficients are checked to be zero-or-big; a run in
which a near-zero nonzero coefficient ever appears at a row boundary is
flagged `none`. -/
def tf_rows_watched (dim : ℕ) (s : LinearSystem) (i j : ℕ) :
    ℕ → Option LinearSystem
  | 0 => if allCoeffsZeroOrBig s then some s else none
  | fuel + 1 =>
    if allCoeffsZeroOrBig s then
      let r := tf_while s i j (dim - j)
      tf_rows_watched dim r.1 (i + 1) r.2 fuel
    else none

/-- `compute_triangular_form`, watched. -/
def compute_triangular_form_watched (s : LinearSystem) : Option LinearSystem :=
  tf_rows_watched s.dimension s 0 0 s.planes.length

theorem tf_rows_watched_proj (dim : ℕ) :
    ∀ (fuel i j : ℕ) (s t : LinearSystem),
      tf_rows_watched dim s i j fuel = some t → t = tf_rows dim s i j fuel := by
  intro fuel
  induction fuel with
  | zero =>
    intro i j s t h
    simp only [tf_rows_watched] at h
    split at h
    · cases h; rfl
    · cases h
  | succ f ih =>
    intro i j s t h
    simp only [tf_rows_watched] at h
    split at h
    · exact ih (i + 1) _ _ t h
    · cases h

/-- The extraction loop without the early break: pivotless rows are
skipped and the scan continues to the end. -/
def store_at_pivots_full (value : Hyperplane → ℚ) :
    List (Hyperplane × ℤ) → List ℚ → List ℚ
  | [], coords => coords
  | (p, pv) :: rest, coords =>
    if pv < 0 then store_at_pivots_full value rest coords
    else store_at_pivots_full value rest (coords.set pv.toNat (value p))

/-- The basepoint extraction examining all rows. -/
def extract_basepoint_full (s : LinearSystem) : List ℚ :=
  let pivot_indices := indices_of_first_nonzero_terms_in_each_row s
  store_at_pivots_full (fun p => p.constant_term) (s.planes.zip pivot_indices)
    (List.replicate s.dimension (0 : ℚ))

/-- The direction-vector extraction examining all rows. -/
def extract_direction_vectors_full (s : LinearSystem) : List (List ℚ) :=
  let pivot_indices := indices_of_first_nonzero_terms_in_each_row s
  (free_variable_indices s).map (fun free_var =>
    store_at_pivots_full (fun p => -(p.normal_vector.getD free_var 0))
      (s.planes.zip pivot_indices)
      ((List.replicate s.dimension (0 : ℚ)).set free_var 1))

theorem store_at_pivots_full_all_neg (value : Hyperplane → ℚ) :
    ∀ (rows : List (Hyperplane × ℤ)) (coords : List ℚ),
      (∀ q ∈ rows, q.2 < 0) →
      store_at_pivots_full value rows coords = coords := by
  intro rows
  induction rows with
  | nil => intro coords _; rfl
  | cons q rest ih =>
    intro coords hneg
    cases q with
    | mk p pv =>
      simp only [store_at_pivots_full]
      rw [if_pos (hneg (p, pv) (List.mem_cons_self _ _))]
      exact ih coords (fun r hr => hneg r (List.mem_cons_of_mem _ hr))

theorem store_at_pivots_break_eq_full (value : Hyperplane → ℚ) :
    ∀ (rows : List (Hyperplane × ℤ)) (coords : List ℚ),
      (∀ (m1 m2 : ℕ), m1 < m2 → ∀ (q1 q2 : Hyperplane × ℤ),
        rows[m1]? = some q1 → rows[m2]? = some q2 → q1.2 < 0 → q2.2 < 0) →
      store_at_pivots value rows coords =
        store_at_pivots_full value rows coords := by
  intro rows
  induction rows with
  | nil => intro coords _; rfl
  | cons q rest ih =>
    intro coords htrail
    cases q with
    | mk p pv =>
      simp only [store_at_pivots, store_at_pivots_full]
      split
      next hneg =>
        rw [store_at_pivots_full_all_neg]
        intro r hr
        obtain ⟨m, hm⟩ := List.getElem?_of_mem hr
        exact htrail 0 (m + 1) (by omega) (p, pv) r List.getElem?_cons_zero
          (by rw [List.getElem?_cons_succ]; exact hm) hneg
      · exact ih _ (fun m1 m2 h12 q1 q2 h1 h2 hq1 =>
          htrail (m1 + 1) (m2 + 1) (by omega) q1 q2
            (by rw [List.getElem?_cons_succ]; exact h1)
            (by rw [List.getElem?_cons_succ]; exact h2) hq1)

/-- With an echelon-ordered pivot list, a pivotless row is followed only by
pivotless rows. -/
theorem pivotStructureOK_trailing {l : List ℤ}
    (h : pivotStructureOK l = true) :
    ∀ m1 m2, m1 < m2 → (h1 : m1 < l.length) → (h2 : m2 < l.length) →
      l[m1] < 0 → l[m2] < 0 := by
  intro m1 m2 h12 h1 h2 hneg
  by_contra hge
  have hnn : 0 ≤ l[m2] := by omega
  have := (pivotStructureOK_nonneg_front h m2 h2 hnn m1 h12).1
  omega

/-- On an echelon-ordered system the extraction break is harmless. -/
theorem extract_break_eq_full (R : LinearSystem)
    (h : pivotStructureOK (indices_of_first_nonzero_terms_in_each_row R)
      = true) :
    extract_basepoint_for_parametrization R = extract_basepoint_full R ∧
    extract_direction_vectors_for_parametrization R =
      extract_direction_vectors_full R := by
  have htrail : ∀ (m1 m2 : ℕ), m1 < m2 → ∀ (q1 q2 : Hyperplane × ℤ),
      (R.planes.zip (indices_of_first_nonzero_terms_in_each_row R))[m1]?
        = some q1 →
      (R.planes.zip (indices_of_first_nonzero_terms_in_each_row R))[m2]?
        = some q2 → q1.2 < 0 → q2.2 < 0 := by
    intro m1 m2 h12 q1 q2 h1 h2 hq1
    rw [zip_planes_pivots, List.getElem?_map] at h1 h2
    cases hp1 : R.planes[m1]? with
    | none => rw [hp1] at h1; cases h1
    | some p1 =>
      cases hp2 : R.planes[m2]? with
      | none => rw [hp2] at h2; cases h2
      | some p2 =>
        rw [hp1] at h1
        rw [hp2] at h2
        injection h1 with h1
        injection h2 with h2
        subst h1
        subst h2
        have hm1 : m1 < R.planes.length := by
          by_contra hge
          rw [List.getElem?_eq_none (by omega)] at hp1
          cases hp1
        have hm2 : m2 < R.planes.length := by
          by_contra hge
          rw [List.getElem?_eq_none (by omega)] at hp2
          cases hp2
        have e1 : R.planes[m1] = p1 := by
          have := List.getElem?_eq_getElem hm1
          rw [hp1] at this
          exact (Option.some_injective _ this).symm
        have e2 : R.planes[m2] = p2 := by
          have := List.getElem?_eq_getElem hm2
          rw [hp2] at this
          exact (Option.some_injective _ this).symm
        have l1 : m1 < (indices_of_first_nonzero_terms_in_each_row R).length := by
          rw [indices_length]; exact hm1
        have l2 : m2 < (indices_of_first_nonzero_terms_in_each_row R).length := by
          rw [indices_length]; exact hm2
        have g1 := indices_getElem_eq R m1 hm1 l1
        have g2 := indices_getElem_eq R m2 hm2 l2
        rw [e1] at g1
        rw [e2] at g2
        have := pivotStructureOK_trailing h m1 m2 h12 l1 l2 (by rw [g1]; exact hq1)
        rw [g2] at this
        exact this
  constructor
  · show store_at_pivots _ _ _ = store_at_pivots_full _ _ _
    exact store_at_pivots_break_eq_full _ _ _ htrail
  · show (free_variable_indices R).map _ = (free_variable_indices R).map _
    refine List.map_congr_left (fun f _ => ?_)
    exact store_at_pivots_break_eq_full _ _ _ htrail

theorem getRow_eq_getElem?_getD (s : LinearSystem) (m : ℕ) :
    getRow s m = (s.planes[m]?).getD default := by
  unfold getRow
  rw [List.getD_eq_getElem?_getD]

theorem is_near_zero_ne_zero {x : ℚ} (h : is_near_zero x = false) : x ≠ 0 := by
  intro hx
  rw [hx] at h
  rw [is_near_zero_zero] at h
  cases h

theorem zeroOrBig_near_zero {c : ℚ} (hz : zeroOrBig c = true)
    (hn : is_near_zero c = true) : c = 0 := by
  unfold zeroOrBig at hz
  rw [hn] at hz
  simpa using hz

theorem all_zeroOrBig_getD (l : List ℚ) (h : l.all zeroOrBig = true)
    (c : ℕ) : zeroOrBig (l.getD c 0) = true := by
  rw [List.getD_eq_getElem?_getD]
  cases hc : l[c]? with
  | none => decide
  | some x => exact List.all_eq_true.mp h x (List.getElem?_mem hc)

theorem allCoeffsZeroOrBig_coeff {s : LinearSystem}
    (h : allCoeffsZeroOrBig s = true) (k c : ℕ) :
    zeroOrBig (coeff s k c) = true := by
  unfold coeff
  by_cases hk : k < s.planes.length
  · exact all_zeroOrBig_getD _ (List.all_eq_true.mp h _ (getRow_mem s k hk)) c
  · have : getRow s k = default := by
      rw [getRow_eq_getElem?_getD, List.getElem?_eq_none (by omega)]
      rfl
    rw [this]
    show zeroOrBig (([] : List ℚ).getD c 0) = true
    rw [List.getD_nil]
    decide

theorem getRow_swap_snd (s : LinearSystem) (a b : ℕ)
    (hb : b < s.planes.length) :
    getRow (swap_rows s a b) b = getRow s a := by
  rw [getRow_eq_getElem?_getD]
  show (((s.planes.set a (getRow s b)).set b (getRow s a))[b]?).getD default
    = getRow s a
  rw [List.getElem?_set_self (by simpa using hb)]
  rfl

theorem getRow_swap_fst (s : LinearSystem) (a b : ℕ)
    (ha : a < s.planes.length) (hab : a ≠ b) :
    getRow (swap_rows s a b) a = getRow s b := by
  rw [getRow_eq_getElem?_getD]
  show (((s.planes.set a (getRow s b)).set b (getRow s a))[a]?).getD default
    = getRow s b
  rw [List.getElem?_set_ne (by omega), List.getElem?_set_self ha]
  rfl

theorem getRow_swap_other (s : LinearSystem) (a b k : ℕ)
    (hka : k ≠ a) (hkb : k ≠ b) :
    getRow (swap_rows s a b) k = getRow s k := by
  rw [getRow_eq_getElem?_getD, getRow_eq_getElem?_getD]
  show (((s.planes.set a (getRow s b)).set b (getRow s a))[k]?).getD default = _
  rw [List.getElem?_set_ne (by omega), List.getElem?_set_ne (by omega)]

theorem times_scalar_getD (n : List ℚ) (c : ℚ) :
    ∀ j : ℕ, (times_scalar n c).getD j 0 = c * n.getD j 0 := by
  induction n with
  | nil => intro j; simp [times_scalar]
  | cons x xs ih =>
    intro j
    cases j with
    | zero => simp [times_scalar]
    | succ j' =>
      show (times_scalar xs c).getD j' 0 = c * xs.getD j' 0
      exact ih j'

theorem vplus_times_getD (n1 : List ℚ) (c : ℚ) :
    ∀ (n2 : List ℚ) (j : ℕ), n1.length = n2.length →
      (vplus (times_scalar n1 c) n2).getD j 0 =
        c * n1.getD j 0 + n2.getD j 0 := by
  induction n1 with
  | nil =>
    intro n2 j hlen
    have : n2 = [] := List.length_eq_zero.mp hlen.symm
    subst this
    simp [vplus, times_scalar]
  | cons x xs ih =>
    intro n2 j hlen
    cases n2 with
    | nil => simp at hlen
    | cons y ys =>
      cases j with
      | zero => simp [vplus, times_scalar]
      | succ j' =>
        show (vplus (times_scalar xs c) ys).getD j' 0 = c * xs.getD j' 0 + _
        exact ih ys j' (by simpa using hlen)

theorem combined_row_coeff (q p : Hyperplane) (α : ℚ) (c : ℕ)
    (hlen : q.normal_vector.length = p.normal_vector.length) :
    (combined_row q α p).normal_vector.getD c 0 =
      α * q.normal_vector.getD c 0 + p.normal_vector.getD c 0 :=
  vplus_times_getD _ _ _ _ hlen

theorem combined_row_length (q p : Hyperplane) (α : ℚ) :
    (combined_row q α p).normal_vector.length =
      min q.normal_vector.length p.normal_vector.length := by
  show (vplus (times_scalar _ _) _).length = _
  rw [vplus, List.length_zipWith, times_scalar, List.length_map]

theorem getRow_add_self (s : LinearSystem) (c : ℚ) (f t : ℕ)
    (ht : t < s.planes.length) :
    getRow (add_multiple_times_row_to_row s c f t) t =
      combined_row (getRow s f) c (getRow s t) := by
  rw [getRow_eq_getElem?_getD]
  unfold add_multiple_times_row_to_row
  simp only
  rw [List.getElem?_set_self ht]
  rfl

theorem coeff_add_self (s : LinearSystem) (c : ℚ) (f t col : ℕ)
    (ht : t < s.planes.length)
    (hlen : (getRow s f).normal_vector.length =
      (getRow s t).normal_vector.length) :
    coeff (add_multiple_times_row_to_row s c f t) t col =
      c * coeff s f col + coeff s t col := by
  unfold coeff
  rw [getRow_add_self s c f t ht]
  exact combined_row_coeff _ _ _ _ hlen

theorem coeff_multiply_self (s : LinearSystem) (c : ℚ) (r col : ℕ)
    (hr : r < s.planes.length) :
    coeff (multiply_coefficient_and_row s c r) r col = c * coeff s r col := by
  unfold coeff
  rw [getRow_multiply_self s c r hr]
  exact times_scalar_getD _ _ _

theorem getRow_multiply_ne (s : LinearSystem) (c : ℚ) (r m : ℕ) (h : r ≠ m) :
    getRow (multiply_coefficient_and_row s c r) m = getRow s m := by
  rw [getRow_eq_getElem?_getD, getRow_eq_getElem?_getD]
  unfold multiply_coefficient_and_row
  simp only
  rw [List.getElem?_set_ne h]

theorem coeff_multiply_ne (s : LinearSystem) (c : ℚ) (r m col : ℕ)
    (h : r ≠ m) :
    coeff (multiply_coefficient_and_row s c r) m col = coeff s m col := by
  unfold coeff
  rw [getRow_multiply_ne s c r m h]

/-- The rows of the backward elimination loop, described pointwise: every
row `m < k` receives `alpha = -coefficient(m, col)` times row `row`; rows
`≥ k` are untouched.  All reads are from the state at entry. -/
theorem clear_above_go_row (row col : ℕ) :
    ∀ (k m : ℕ) (s : LinearSystem), k ≤ row →
      (clear_above_go s row col k).planes[m]? =
        if m < k then
          (s.planes[m]?).map (combined_row (getRow s row) (-(coeff s m col)))
        else s.planes[m]? := by
  intro k
  induction k with
  | zero =>
    intro m s _
    rw [if_neg (by omega)]
    rfl
  | succ k ih =>
    intro m s hrow
    have step : clear_above_go s row col (k + 1) =
        clear_above_go (add_multiple_times_row_to_row s (-(coeff s k col)) row k)
          row col k := rfl
    rw [step, ih m _ (by omega)]
    rcases Nat.lt_trichotomy m k with hm | hm | hm
    · rw [if_pos hm, if_pos (by omega),
        getElem?_add_ne _ _ _ _ _ (by omega),
        getRow_add_ne _ _ _ _ _ (by omega), coeff_add_ne _ _ _ _ _ _ (by omega)]
    · subst hm
      rw [if_neg (by omega), if_pos (by omega)]
      cases hp : s.planes[m]? with
      | none =>
        have hlen : s.planes.length ≤ m := by
          simpa using List.getElem?_eq_none_iff.mp hp
        unfold add_multiple_times_row_to_row
        simp only
        rw [List.getElem?_eq_none (by simpa using hlen)]
        rfl
      | some p =>
        have hlen : m < s.planes.length := by
          by_contra hge
          rw [List.getElem?_eq_none (by omega)] at hp
          cases hp
        unfold add_multiple_times_row_to_row
        simp only
        rw [List.getElem?_set_self hlen]
        have hgr : getRow s m = p := getRow_eq_of_getElem? s m p hp
        simp [combined_row, hgr]
    · rw [if_neg (by omega), if_neg (by omega),
        getElem?_add_ne _ _ _ _ _ (by omega)]

theorem getRow_clear_above_lt (s : LinearSystem) (row col k m : ℕ)
    (hk : k ≤ row) (hm : m < k) (hmlen : m < s.planes.length) :
    getRow (clear_above_go s row col k) m =
      combined_row (getRow s row) (-(coeff s m col)) (getRow s m) := by
  rw [getRow_eq_getElem?_getD, clear_above_go_row row col k m s hk, if_pos hm,
    List.getElem?_eq_getElem hmlen]
  simp only [Option.map_some', Option.getD_some]
  rw [getRow_eq_getElem s m hmlen]

theorem getRow_clear_above_ge (s : LinearSystem) (row col k m : ℕ)
    (hk : k ≤ row) (hm : k ≤ m) :
    getRow (clear_above_go s row col k) m = getRow s m := by
  rw [getRow_eq_getElem?_getD, clear_above_go_row row col k m s hk,
    if_neg (by omega), ← getRow_eq_getElem?_getD]

theorem getRow_clear_below_in (s : LinearSystem) (row col : ℕ) (beta : ℚ)
    (fuel k m : ℕ) (hrow : row < k) (hin : k ≤ m) (hin2 : m < k + fuel)
    (hmlen : m < s.planes.length) :
    getRow (clear_below_go s row col beta k fuel) m =
      combined_row (getRow s row) (-(coeff s m col) / beta) (getRow s m) := by
  rw [getRow_eq_getElem?_getD, clear_below_go_row row col beta fuel k m s hrow,
    if_pos ⟨hin, hin2⟩, List.getElem?_eq_getElem hmlen]
  simp only [Option.map_some', Option.getD_some]
  rw [getRow_eq_getElem s m hmlen]

theorem getRow_clear_below_out (s : LinearSystem) (row col : ℕ) (beta : ℚ)
    (fuel k m : ℕ) (hrow : row < k) (hout : ¬(k ≤ m ∧ m < k + fuel)) :
    getRow (clear_below_go s row col beta k fuel) m = getRow s m := by
  rw [getRow_eq_getElem?_getD, clear_below_go_row row col beta fuel k m s hrow,
    if_neg hout, ← getRow_eq_getElem?_getD]

theorem takeWhile_eq_take_of_pointwise {α : Type _} (pred : α → Bool) :
    ∀ (l : List α) (p : ℕ), p ≤ l.length →
      (∀ (i : ℕ) (h : i < l.length), pred l[i] = true ↔ i < p) →
      l.takeWhile pred = l.take p ∧ l.dropWhile pred = l.drop p := by
  intro l
  induction l with
  | nil => intro p _ _; simp
  | cons x xs ih =>
    intro p hp h
    cases p with
    | zero =>
      have hx : pred x = false := by
        cases hpx : pred x
        · rfl
        · exact absurd ((h 0 (by simp)).mp (by simpa using hpx)) (by omega)
      rw [List.takeWhile_cons, List.dropWhile_cons, hx]
      simp
    | succ q =>
      have hx : pred x = true := by
        have := (h 0 (by simp)).mpr (by omega)
        simpa using this
      have hrest := ih q (by simpa using hp) (fun i hi => by
        have := h (i + 1) (by simpa using hi)
        simpa using this)
      rw [List.takeWhile_cons, List.dropWhile_cons, hx]
      simp only [if_true]
      exact ⟨by rw [hrest.1]; rfl, by rw [hrest.2]; rfl⟩

/-- A pivot list whose nonnegative entries form a strictly increasing
prefix of length `p` is echelon-ordered. -/
theorem pivotStructureOK_of_pointwise (l : List ℤ) (p : ℕ) (hp : p ≤ l.length)
    (h1 : ∀ (i : ℕ) (h : i < l.length), 0 ≤ l[i] ↔ i < p)
    (h2 : ∀ (a b : ℕ), (ha : a < l.length) → (hb : b < l.length) → a < b →
      b < p → l[a] < l[b]) :
    pivotStructureOK l = true := by
  have htd := takeWhile_eq_take_of_pointwise (fun x => decide (0 ≤ x)) l p hp
    (fun i hi => by
      rw [decide_eq_true_iff]
      exact h1 i hi)
  unfold pivotStructureOK
  rw [htd.1, htd.2, Bool.and_eq_true, decide_eq_true_iff, List.all_eq_true]
  constructor
  · rw [List.pairwise_iff_getElem]
    intro a b ha hb hab
    have hlt : (l.take p).length = p := by simp [List.length_take]; omega
    rw [hlt] at ha hb
    have ha' : a < l.length := by omega
    have hb' : b < l.length := by omega
    simp only [List.getElem_take]
    exact h2 a b ha' hb' hab hb
  · intro x hx
    rw [decide_eq_true_iff]
    obtain ⟨i, hi⟩ := List.getElem?_of_mem hx
    rw [List.getElem?_drop] at hi
    have hpl : p + i < l.length := by
      by_contra hge
      rw [List.getElem?_eq_none (by omega)] at hi
      cases hi
    have hix : l[p + i] = x := by
      have := List.getElem?_eq_getElem hpl
      rw [hi] at this
      exact (Option.some_injective _ this).symm
    have := (h1 (p + i) hpl).not
    rw [hix] at this
    have hneg : ¬(0 ≤ x) := this.mpr (by omega)
    omega

theorem swap_search_true_spec (row col : ℕ) :
    ∀ (fuel k : ℕ) (s s₁ : LinearSystem),
      swap_search s row col k fuel = (s₁, true) →
      ∃ k₀, k ≤ k₀ ∧ k₀ < k + fuel ∧ s₁ = swap_rows s row k₀ ∧
        is_near_zero (coeff s k₀ col) = false ∧
        ∀ m, k ≤ m → m < k₀ → is_near_zero (coeff s m col) = true := by
  intro fuel
  induction fuel with
  | zero =>
    intro k s s₁ h
    simp [swap_search] at h
  | succ f ih =>
    intro k s s₁ h
    simp only [swap_search] at h
    split at h
    next hc =>
      obtain ⟨k₀, h1, h2, h3, h4, h5⟩ := ih (k + 1) s s₁ h
      refine ⟨k₀, by omega, by omega, h3, h4, fun m hm1 hm2 => ?_⟩
      rcases Nat.eq_or_lt_of_le hm1 with he | hl
      · rw [← he]; exact hc
      · exact h5 m (by omega) hm2
    next hc =>
      injection h with h1 h2
      subst h1
      exact ⟨k, le_refl k, by omega, rfl, Bool.eq_false_iff.mpr hc,
        fun m hm1 hm2 => absurd hm2 (by omega)⟩

theorem swap_search_false_spec (row col : ℕ) :
    ∀ (fuel k : ℕ) (s s₁ : LinearSystem),
      swap_search s row col k fuel = (s₁, false) →
      s₁ = s ∧ ∀ m, k ≤ m → m < k + fuel →
        is_near_zero (coeff s m col) = true := by
  intro fuel
  induction fuel with
  | zero =>
    intro k s s₁ h
    injection h with h1 h2
    exact ⟨h1.symm, fun m hm1 hm2 => absurd hm2 (by omega)⟩
  | succ f ih =>
    intro k s s₁ h
    simp only [swap_search] at h
    split at h
    next hc =>
      obtain ⟨h1, h2⟩ := ih (k + 1) s s₁ h
      refine ⟨h1, fun m hm1 hm2 => ?_⟩
      rcases Nat.eq_or_lt_of_le hm1 with he | hl
      · rw [← he]; exact hc
      · exact h2 m (by omega) (by omega)
    next hc =>
      injection h with h1 h2
      cases h2

/-- The invariant of the watched forward pass at the entry of row `i` with
column cursor `j`: `cs` lists the pivot columns secured so far (one per
processed row while the cursor lasts), strictly increasing and below the
cursor; each secured row has a non-near-zero pivot with exact zeros below
it and exact zeros at earlier skipped columns; all remaining rows are
near-zero at every skipped column left of the cursor. -/
structure TFInv (n dim : ℕ) (s : LinearSystem) (i j : ℕ) (cs : List ℕ) :
    Prop where
  hn : s.planes.length = n
  hdim : s.dimension = dim
  wf : ∀ r, r < n → (getRow s r).normal_vector.length = dim
  hp : cs.length ≤ i
  hjdim : j ≤ dim
  hphase : cs.length < i → j = dim
  sorted : List.Pairwise (· < ·) cs
  hlt : ∀ c ∈ cs, c < j
  hB : ∀ r, (h : r < cs.length) → is_near_zero (coeff s r cs[r]) = false
  hC : ∀ r, (h : r < cs.length) → ∀ k, r < k → coeff s k cs[r] = 0
  hD : ∀ r, (h : r < cs.length) → ∀ c, c < cs[r] → c ∉ cs → coeff s r c = 0
  hE : ∀ k, cs.length ≤ k → ∀ c, c < j → c ∉ cs →
    is_near_zero (coeff s k c) = true

theorem skip_step (n dim i j : ℕ) (s : LinearSystem) (cs : List ℕ)
    (inv : TFInv n dim s i j cs) (hp1 : cs.length = i) (hj : j < dim)
    (hself : is_near_zero (coeff s i j) = true)
    (hbelow : ∀ m, i < m → m < n → is_near_zero (coeff s m j) = true) :
    TFInv n dim s i (j + 1) cs := by
  refine ⟨inv.hn, inv.hdim, inv.wf, inv.hp, by omega,
    by intro h2; exfalso; omega, inv.sorted,
    fun c hc => by have := inv.hlt c hc; omega,
    inv.hB, inv.hC, inv.hD, ?_⟩
  intro k hk c hc hcs
  by_cases hcj : c = j
  · subst hcj
    rw [hp1] at hk
    rcases Nat.eq_or_lt_of_le hk with he | hl
    · rw [← he]; exact hself
    · by_cases hkn : k < n
      · exact hbelow k hl hkn
      · rw [coeff_out_of_range s k c (by rw [inv.hn]; omega)]
        exact is_near_zero_zero
  · exact inv.hE k hk c (by omega) hcs

/-- Securing a pivot at `(i, j)`: after (possibly) swapping a non-near-zero
entry up into row `i` and clearing the column below it, the invariant moves
to row `i+1` with the cursor advanced and `j` appended to the secured
columns.  The state `s₁` is the post-swap state, described abstractly:
rows below `i` are unchanged and rows from `i` on are a rearrangement of
the old rows from `i` on. -/
theorem secure_step (n dim i j : ℕ) (s s₁ : LinearSystem) (cs : List ℕ)
    (inv : TFInv n dim s i j cs) (hp1 : cs.length = i) (hin : i < n)
    (hj : j < dim) (hchk : allCoeffsZeroOrBig s = true)
    (hlen1 : s₁.planes.length = n) (hdim1 : s₁.dimension = dim)
    (hlow : ∀ k, k < i → getRow s₁ k = getRow s k)
    (hperm : ∀ k, i ≤ k → k < n → ∃ m, i ≤ m ∧ m < n ∧ getRow s₁ k = getRow s m)
    (hbig : is_near_zero (coeff s₁ i j) = false) :
    TFInv n dim (clear_coefficients_below s₁ i j) (i + 1) (j + 1)
      (cs ++ [j]) := by
  have wf1 : ∀ r, r < n → (getRow s₁ r).normal_vector.length = dim := by
    intro r hr
    by_cases hri : r < i
    · rw [hlow r hri]; exact inv.wf r hr
    · obtain ⟨m, _, hm2, he⟩ := hperm r (by omega) hr
      rw [he]; exact inv.wf m hm2
  have hbne : coeff s₁ i j ≠ 0 := is_near_zero_ne_zero hbig
  have hexp : clear_coefficients_below s₁ i j =
      clear_below_go s₁ i j (coeff s₁ i j) (i + 1) (n - (i + 1)) := by
    unfold clear_coefficients_below
    rw [hlen1]
  have hrow_le : ∀ m, m ≤ i →
      getRow (clear_coefficients_below s₁ i j) m = getRow s₁ m := by
    intro m hm
    rw [hexp]
    exact getRow_clear_below_out _ _ _ _ _ _ _ (by omega) (by omega)
  have hrow_ge : ∀ m, n ≤ m →
      getRow (clear_coefficients_below s₁ i j) m = getRow s₁ m := by
    intro m hm
    rw [hexp]
    exact getRow_clear_below_out _ _ _ _ _ _ _ (by omega) (by omega)
  have hrow_in : ∀ m, i < m → m < n →
      getRow (clear_coefficients_below s₁ i j) m =
        combined_row (getRow s₁ i) (-(coeff s₁ m j) / coeff s₁ i j)
          (getRow s₁ m) := by
    intro m hm1 hm2
    rw [hexp]
    exact getRow_clear_below_in _ _ _ _ _ _ _ (by omega) (by omega) (by omega)
      (by rw [hlen1]; omega)
  have hlen2 : (clear_coefficients_below s₁ i j).planes.length = n := by
    rw [clear_coefficients_below_length, hlen1]
  have hdim2 : (clear_coefficients_below s₁ i j).dimension = dim := by
    rw [clear_coefficients_below_dimension, hdim1]
  have hco_le : ∀ m c, m ≤ i →
      coeff (clear_coefficients_below s₁ i j) m c = coeff s₁ m c := by
    intro m c hm
    unfold coeff
    rw [hrow_le m hm]
  have hco_in : ∀ m c, i < m → m < n →
      coeff (clear_coefficients_below s₁ i j) m c =
        -(coeff s₁ m j) / coeff s₁ i j * coeff s₁ i c + coeff s₁ m c := by
    intro m c hm1 hm2
    show (getRow _ m).normal_vector.getD c 0 = _
    rw [hrow_in m hm1 hm2]
    exact combined_row_coeff _ _ _ _ (by rw [wf1 i hin, wf1 m hm2])
  have hco_ge : ∀ m c, n ≤ m →
      coeff (clear_coefficients_below s₁ i j) m c = 0 := by
    intro m c hm
    exact coeff_out_of_range _ m c (by omega)
  have hskip_zero : ∀ m c, i ≤ m → c < j → c ∉ cs → coeff s m c = 0 := by
    intro m c hm hcj hcs
    exact zeroOrBig_near_zero (allCoeffsZeroOrBig_coeff hchk m c)
      (inv.hE m (by omega) c hcj hcs)
  have hlen_app : (cs ++ [j]).length = i + 1 := by simp [hp1]
  have hget : ∀ (r : ℕ), (h : r < (cs ++ [j]).length) →
      (cs ++ [j])[r] = if hr : r < cs.length then cs[r] else j := by
    intro r h
    by_cases hr : r < cs.length
    · rw [dif_pos hr]
      exact List.getElem_append_left hr
    · rw [dif_neg hr]
      have hr' : r = cs.length := by
        rw [hlen_app] at h
        omega
      subst hr'
      have h9 : (cs ++ [j])[cs.length]? = some j := by
        rw [List.getElem?_append_right (le_refl _)]
        simp
      have h10 := List.getElem?_eq_getElem h
      rw [h9] at h10
      exact (Option.some_injective _ h10).symm
  refine ⟨hlen2, hdim2, ?_, by omega, by omega,
    by intro h2; exfalso; omega, ?_, ?_, ?_, ?_, ?_, ?_⟩
  · -- wf
    intro r hr
    by_cases hri : r ≤ i
    · rw [hrow_le r hri]; exact wf1 r hr
    · rw [hrow_in r (by omega) hr, combined_row_length, wf1 i hin, wf1 r hr]
      simp
  · -- sorted
    rw [List.pairwise_append]
    refine ⟨inv.sorted, by simp, ?_⟩
    intro a ha b hb
    rw [List.mem_singleton] at hb
    subst hb
    exact inv.hlt a ha
  · -- hlt
    intro c hc
    rcases List.mem_append.mp hc with h | h
    · have := inv.hlt c h; omega
    · rw [List.mem_singleton] at h; omega
  · -- hB
    intro r h
    rw [hget r h]
    by_cases hr : r < cs.length
    · rw [dif_pos hr]
      have hri : r < i := by omega
      unfold coeff
      rw [hrow_le r (by omega), hlow r hri]
      exact inv.hB r hr
    · rw [dif_neg hr]
      have hr' : r = cs.length := by rw [hlen_app] at h; omega
      subst hr'
      unfold coeff
      rw [hrow_le cs.length (by omega)]
      show is_near_zero (coeff s₁ cs.length j) = false
      rw [hp1]
      exact hbig
  · -- hC
    intro r h k hk
    rw [hget r h]
    by_cases hr : r < cs.length
    · rw [dif_pos hr]
      by_cases hkn : k < n
      · by_cases hki : k ≤ i
        · rw [hco_le k _ hki]
          by_cases hki2 : k < i
          · have : coeff s₁ k cs[r] = coeff s k cs[r] := by
              unfold coeff; rw [hlow k hki2]
            rw [this]
            exact inv.hC r hr k hk
          · have hke : k = i := by omega
            obtain ⟨m, hm1, hm2, he⟩ := hperm k (by omega) hkn
            have : coeff s₁ k cs[r] = coeff s m cs[r] := by
              unfold coeff; rw [he]
            rw [this]
            exact inv.hC r hr m (by omega)
        · rw [hco_in k _ (by omega) hkn]
          obtain ⟨m, hm1, hm2, he⟩ := hperm i (le_refl i) hin
          have e1 : coeff s₁ i cs[r] = coeff s m cs[r] := by
            unfold coeff; rw [he]
          obtain ⟨m', hm1', hm2', he'⟩ := hperm k (by omega) hkn
          have e2 : coeff s₁ k cs[r] = coeff s m' cs[r] := by
            unfold coeff; rw [he']
          rw [e1, e2, inv.hC r hr m (by omega), inv.hC r hr m' (by omega)]
          ring
      · exact hco_ge k _ (by omega)
    · rw [dif_neg hr]
      have hr' : r = cs.length := by rw [hlen_app] at h; omega
      have hki : i < k := by omega
      by_cases hkn : k < n
      · rw [hco_in k j hki hkn, div_mul_cancel₀ _ hbne]
        ring
      · exact hco_ge k j (by omega)
  · -- hD
    intro r h c hc hcmem
    have hc_cs : c ∉ cs := fun hx => hcmem (List.mem_append_left _ hx)
    have hc_j : c ≠ j := fun hx =>
      hcmem (by rw [hx]; exact List.mem_append_right _ (List.mem_singleton.mpr rfl))
    rw [hget r h] at hc
    by_cases hr : r < cs.length
    · rw [dif_pos hr] at hc
      have hri : r < i := by omega
      have : coeff (clear_coefficients_below s₁ i j) r c = coeff s r c := by
        unfold coeff
        rw [hrow_le r (by omega), hlow r hri]
      rw [this]
      exact inv.hD r hr c hc hc_cs
    · rw [dif_neg hr] at hc
      have hr' : r = cs.length := by rw [hlen_app] at h; omega
      subst hr'
      rw [hco_le _ _ (by omega)]
      obtain ⟨m, hm1, hm2, he⟩ := hperm cs.length (by omega) (by omega)
      have : coeff s₁ cs.length c = coeff s m c := by
        unfold coeff; rw [hp1, ← he, hp1]
      rw [this]
      exact hskip_zero m c hm1 hc hc_cs
  · -- hE
    intro k hk c hc hcmem
    have hc_cs : c ∉ cs := fun hx => hcmem (List.mem_append_left _ hx)
    have hc_j : c ≠ j := fun hx =>
      hcmem (by rw [hx]; exact List.mem_append_right _ (List.mem_singleton.mpr rfl))
    have hcj : c < j := by omega
    have hki : i < k := by rw [hlen_app] at hk; omega
    by_cases hkn : k < n
    · rw [hco_in k c hki hkn]
      obtain ⟨m, hm1, hm2, he⟩ := hperm i (le_refl i) hin
      have e1 : coeff s₁ i c = coeff s m c := by
        unfold coeff; rw [he]
      rw [e1, hskip_zero m c hm1 hcj hc_cs, mul_zero, zero_add]
      obtain ⟨m', hm1', hm2', he'⟩ := hperm k (by omega) hkn
      have e2 : coeff s₁ k c = coeff s m' c := by
        unfold coeff; rw [he']
      rw [e2]
      exact inv.hE m' (by omega) c hcj hc_cs
    · rw [hco_ge k c (by omega)]
      exact is_near_zero_zero

theorem tf_while_inv (n dim i : ℕ) (hin : i < n) :
    ∀ (fuel j : ℕ) (s : LinearSystem) (cs : List ℕ), fuel = dim - j →
      TFInv n dim s i j cs → cs.length = i →
      allCoeffsZeroOrBig s = true →
      ∃ cs', TFInv n dim (tf_while s i j fuel).1 (i + 1)
        (tf_while s i j fuel).2 cs' := by
  intro fuel
  induction fuel with
  | zero =>
    intro j s cs hfuel inv hp1 hchk
    have hj : j = dim := by have := inv.hjdim; omega
    exact ⟨cs, ⟨inv.hn, inv.hdim, inv.wf, by omega, inv.hjdim,
      fun _ => hj, inv.sorted, inv.hlt, inv.hB, inv.hC, inv.hD, inv.hE⟩⟩
  | succ f ih =>
    intro j s cs hfuel inv hp1 hchk
    have hj : j < dim := by omega
    simp only [tf_while]
    split
    next hz =>
      split
      next s' heq =>
        rw [show (swap_with_row_below s i j) =
          swap_search s i j (i + 1) (s.planes.length - (i + 1)) from rfl] at heq
        obtain ⟨k₀, hk1, hk2, hk3, hk4, hk5⟩ :=
          swap_search_true_spec i j _ _ s s' heq
        have hk2' : k₀ < n := by
          rw [inv.hn] at hk2
          omega
        have hik : i ≠ k₀ := by omega
        subst hk3
        refine ⟨cs ++ [j],
          secure_step n dim i j s _ cs inv hp1 hin hj hchk ?_ ?_ ?_ ?_ ?_⟩
        · rw [length_swap_rows, inv.hn]
        · rw [dimension_swap_rows, inv.hdim]
        · intro k hki
          exact getRow_swap_other s i k₀ k (by omega) (by omega)
        · intro k hki hkn
          by_cases hka : k = i
          · refine ⟨k₀, by omega, hk2', ?_⟩
            rw [hka]
            exact getRow_swap_fst s i k₀ (by rw [inv.hn]; omega) hik
          · by_cases hkb : k = k₀
            · refine ⟨i, le_refl i, by omega, ?_⟩
              rw [hkb]
              exact getRow_swap_snd s i k₀ (by rw [inv.hn]; omega)
            · exact ⟨k, hki, hkn, getRow_swap_other s i k₀ k hka hkb⟩
        · have : coeff (swap_rows s i k₀) i j = coeff s k₀ j := by
            unfold coeff
            rw [getRow_swap_fst s i k₀ (by rw [inv.hn]; omega) hik]
          rw [this]
          exact hk4
      next s' heq =>
        rw [show (swap_with_row_below s i j) =
          swap_search s i j (i + 1) (s.planes.length - (i + 1)) from rfl] at heq
        obtain ⟨hs', hall⟩ := swap_search_false_spec i j _ _ s s' heq
        rw [hs']
        exact ih (j + 1) s cs (by omega)
          (skip_step n dim i j s cs inv hp1 hj hz
            (fun m hm1 hm2 => hall m (by omega) (by rw [inv.hn]; omega)))
          hp1 hchk
    next hz =>
      have hz' : is_near_zero (coeff s i j) = false := Bool.eq_false_iff.mpr hz
      exact ⟨cs ++ [j],
        secure_step n dim i j s s cs inv hp1 hin hj hchk inv.hn inv.hdim
          (fun k _ => rfl) (fun k hk1 hk2 => ⟨k, hk1, hk2, rfl⟩) hz'⟩

theorem tf_rows_watched_inv (n dim : ℕ) :
    ∀ (fuel i j : ℕ) (s : LinearSystem) (cs : List ℕ) (T : LinearSystem),
      fuel = n - i → i ≤ n →
      TFInv n dim s i j cs →
      tf_rows_watched dim s i j fuel = some T →
      ∃ j' cs', TFInv n dim T n j' cs' ∧ allCoeffsZeroOrBig T = true := by
  intro fuel
  induction fuel with
  | zero =>
    intro i j s cs T hfuel hin inv hw
    have hi : i = n := by omega
    subst hi
    simp only [tf_rows_watched] at hw
    split at hw
    next hchk =>
      cases hw
      exact ⟨j, cs, inv, hchk⟩
    · cases hw
  | succ f ih =>
    intro i j s cs T hfuel hin inv hw
    have hilt : i < n := by omega
    simp only [tf_rows_watched] at hw
    split at hw
    next hchk =>
      by_cases hpi : cs.length = i
      · obtain ⟨cs', inv'⟩ :=
          tf_while_inv n dim i hilt (dim - j) j s cs rfl inv hpi hchk
        exact ih (i + 1) (tf_while s i j (dim - j)).2 _ cs' T (by omega)
          (by omega) inv' hw
      · have hlt2 : cs.length < i := by have := inv.hp; omega
        have hjd : j = dim := inv.hphase hlt2
        have hz : dim - j = 0 := by omega
        rw [hz] at hw
        exact ih (i + 1) j s cs T (by omega) (by omega)
          ⟨inv.hn, inv.hdim, inv.wf, by omega, inv.hjdim, fun _ => hjd,
            inv.sorted, inv.hlt, inv.hB, inv.hC, inv.hD, inv.hE⟩ hw
    · cases hw

/-- A system whose first `cs.length` rows have first-nonzero indices
`cs[0] < cs[1] < …` and whose remaining rows have none is echelon-ordered. -/
theorem structureOK_of_rows (R : LinearSystem) (n : ℕ) (cs : List ℕ)
    (hn : R.planes.length = n) (hp : cs.length ≤ n)
    (hsorted : List.Pairwise (· < ·) cs)
    (hpiv : ∀ (r : ℕ), (h : r < cs.length) →
      first_nonzero_index (getRow R r).normal_vector = .ok cs[r])
    (htrail : ∀ r, cs.length ≤ r → r < n →
      first_nonzero_index (getRow R r).normal_vector =
        .error NO_NONZERO_ELTS_FOUND_MSG) :
    pivotStructureOK (indices_of_first_nonzero_terms_in_each_row R) = true := by
  have hlen : (indices_of_first_nonzero_terms_in_each_row R).length = n := by
    rw [indices_length, hn]
  have hval : ∀ (r : ℕ), (h : r < n) →
      (indices_of_first_nonzero_terms_in_each_row R)[r] =
        pivotOf (getRow R r) := by
    intro r h
    rw [getRow_eq_getElem R r (by omega)]
    exact indices_getElem_eq R r (by omega) (by omega)
  have hval_lt : ∀ (r : ℕ), (h : r < cs.length) →
      (indices_of_first_nonzero_terms_in_each_row R)[r] =
        (cs[r] : ℤ) := by
    intro r h
    rw [hval r (by omega)]
    unfold pivotOf
    rw [hpiv r h]
  have hval_ge : ∀ (r : ℕ), cs.length ≤ r → (h : r < n) →
      (indices_of_first_nonzero_terms_in_each_row R)[r] = -1 := by
    intro r hr h
    rw [hval r h]
    unfold pivotOf
    rw [htrail r hr h]
  apply pivotStructureOK_of_pointwise _ cs.length (by omega)
  · intro r hr
    rw [hlen] at hr
    constructor
    · intro hnn
      by_contra hge
      rw [hval_ge r (by omega) hr] at hnn
      omega
    · intro hlt
      rw [hval_lt r hlt]
      exact Int.natCast_nonneg _
  · intro a b ha hb hab hbp
    rw [hlen] at ha hb
    rw [hval_lt a (by omega), hval_lt b hbp]
    exact_mod_cast List.pairwise_iff_getElem.mp hsorted a b (by omega) hbp hab

/-- At the end of a watched pass, a trailing (unsecured) row is exactly
zero everywhere. -/
theorem tfinal_trailing_zero (n dim : ℕ) (T : LinearSystem) (j : ℕ)
    (cs : List ℕ) (inv : TFInv n dim T n j cs)
    (hchk : allCoeffsZeroOrBig T = true) :
    ∀ r, cs.length ≤ r → ∀ c, coeff T r c = 0 := by
  intro r hr c
  by_cases hrn : r < n
  · have hlt2 : cs.length < n := by omega
    have hjd : j = dim := inv.hphase hlt2
    by_cases hcd : c < dim
    · by_cases hcs : (c : ℕ) ∈ cs
      · obtain ⟨r', hr', he⟩ := List.getElem_of_mem hcs
        rw [← he]
        exact inv.hC r' hr' r (by omega)
      · exact zeroOrBig_near_zero (allCoeffsZeroOrBig_coeff hchk r c)
          (inv.hE r hr c (by omega) hcs)
    · unfold coeff
      rw [List.getD_eq_getElem?_getD,
        List.getElem?_eq_none (by rw [inv.wf r hrn]; omega)]
      rfl
  · exact coeff_out_of_range T r c (by rw [inv.hn]; omega)

/-- At the end of a watched pass, a secured row is exactly zero left of its
pivot column. -/
theorem tfinal_pre_zero (n dim : ℕ) (T : LinearSystem) (j : ℕ)
    (cs : List ℕ) (inv : TFInv n dim T n j cs)
    (hchk : allCoeffsZeroOrBig T = true) :
    ∀ (r : ℕ), (h : r < cs.length) → ∀ c, c < cs[r] → coeff T r c = 0 := by
  intro r h c hc
  by_cases hcs : c ∈ cs
  · obtain ⟨r', hr', he⟩ := List.getElem_of_mem hcs
    rcases Nat.lt_trichotomy r' r with hlt | he2 | hgt
    · rw [← he]
      exact inv.hC r' hr' r hlt
    · exfalso
      have h1 : cs[r']? = some c := by
        rw [List.getElem?_eq_getElem hr', he]
      rw [he2] at h1
      have h2 := List.getElem?_eq_getElem h
      rw [h1] at h2
      have h3 := Option.some_injective _ h2
      omega
    · exfalso
      have := List.pairwise_iff_getElem.mp inv.sorted r r' h hr' hgt
      omega
  · exact inv.hD r h c hc hcs

/-- At the end of a watched pass, the first-nonzero index of a secured row
is its secured column. -/
theorem tfinal_fni_pivot (n dim : ℕ) (T : LinearSystem) (j : ℕ)
    (cs : List ℕ) (inv : TFInv n dim T n j cs)
    (hchk : allCoeffsZeroOrBig T = true) :
    ∀ (r : ℕ), (h : r < cs.length) →
      first_nonzero_index (getRow T r).normal_vector = .ok cs[r] := by
  intro r h
  have hrn : r < n := by have := inv.hp; omega
  have hcd : cs[r] < dim := by
    have h1 := inv.hlt cs[r] (List.getElem_mem h)
    have h2 := inv.hjdim
    omega
  apply fni_of_spec
  · rw [inv.wf r hrn]
    exact hcd
  · intro c hc
    have := tfinal_pre_zero n dim T j cs inv hchk r h c hc
    unfold coeff at this
    rw [this]
    exact is_near_zero_zero
  · exact inv.hB r h

/-- At the end of a watched pass, a trailing row has no first-nonzero
index. -/
theorem tfinal_fni_trailing (n dim : ℕ) (T : LinearSystem) (j : ℕ)
    (cs : List ℕ) (inv : TFInv n dim T n j cs)
    (hchk : allCoeffsZeroOrBig T = true) :
    ∀ r, cs.length ≤ r → r < n →
      first_nonzero_index (getRow T r).normal_vector =
        .error NO_NONZERO_ELTS_FOUND_MSG := by
  intro r hr hrn
  apply fni_all_near_zero
  rw [List.all_eq_true]
  intro x hx
  obtain ⟨c, hc⟩ := List.getElem?_of_mem hx
  have hval : coeff T r c = x := by
    unfold coeff
    rw [List.getD_eq_getElem?_getD, hc]
    rfl
  rw [← hval, tfinal_trailing_zero n dim T j cs inv hchk r hr c]
  exact is_near_zero_zero

/-- A completed watched forward pass yields an echelon-ordered system. -/
theorem watched_structureOK (n dim : ℕ) (T : LinearSystem) (j : ℕ)
    (cs : List ℕ) (inv : TFInv n dim T n j cs)
    (hchk : allCoeffsZeroOrBig T = true) :
    pivotStructureOK (indices_of_first_nonzero_terms_in_each_row T) = true :=
  structureOK_of_rows T n cs inv.hn inv.hp inv.sorted
    (tfinal_fni_pivot n dim T j cs inv hchk)
    (tfinal_fni_trailing n dim T j cs inv hchk)

/-- The invariant of the backward pass of `compute_rref` over a nicely
triangularized system `T` with secured pivot columns `cs`: the exact zeros
below and left of each pivot and the exactly-zero trailing rows persist;
rows not yet processed still carry `T`'s pivot coefficient and processed
rows have been scaled to a unit pivot.  Row `i` is processed when the
counter is `i + 1`, counting down. -/
structure RrefInv (n dim : ℕ) (cs : List ℕ) (T s : LinearSystem)
    (cnt : ℕ) : Prop where
  hn : s.planes.length = n
  hdim : s.dimension = dim
  wf : ∀ r, r < n → (getRow s r).normal_vector.length = dim
  below : ∀ (r : ℕ), (h : r < cs.length) → ∀ k, r < k → coeff s k cs[r] = 0
  pre0 : ∀ (r : ℕ), (h : r < cs.length) → ∀ c, c < cs[r] → coeff s r c = 0
  trail0 : ∀ r, cs.length ≤ r → ∀ c, coeff s r c = 0
  unproc : ∀ (r : ℕ), (h : r < cs.length) → r < cnt →
    coeff s r cs[r] = coeff T r cs[r]
  scaled : ∀ (r : ℕ), (h : r < cs.length) → cnt ≤ r → coeff s r cs[r] = 1

theorem rref_step (n dim : ℕ) (cs : List ℕ) (T s : LinearSystem) (r : ℕ)
    (hp : cs.length ≤ n) (hsorted : List.Pairwise (· < ·) cs)
    (hTB : ∀ (r' : ℕ), (h : r' < cs.length) →
      is_near_zero (coeff T r' cs[r']) = false)
    (hr : r < cs.length)
    (inv2 : RrefInv n dim cs T s (r + 1)) :
    RrefInv n dim cs T
      (clear_coefficients_above
        (scale_row_to_make_coefficient_equal_one s r cs[r]) r cs[r]) r := by
  have hrn : r < n := by omega
  have hrs : r < s.planes.length := by rw [inv2.hn]; omega
  have hbeta : coeff s r cs[r] = coeff T r cs[r] := inv2.unproc r hr (by omega)
  have hbne : coeff s r cs[r] ≠ 0 := by
    rw [hbeta]; exact is_near_zero_ne_zero (hTB r hr)
  set s1 := scale_row_to_make_coefficient_equal_one s r cs[r] with hs1eq
  set s2 := clear_coefficients_above s1 r cs[r] with hs2eq
  have hs1def : s1 = multiply_coefficient_and_row s (1 / coeff s r cs[r]) r :=
    rfl
  have hs1len : s1.planes.length = n := by
    rw [hs1def, length_multiply, inv2.hn]
  have hs1dim : s1.dimension = dim := by
    rw [hs1def, dimension_multiply, inv2.hdim]
  have hc1self : ∀ c, coeff s1 r c = 1 / coeff s r cs[r] * coeff s r c := by
    intro c
    rw [hs1def]
    exact coeff_multiply_self s _ r c hrs
  have hc1ne : ∀ m c, m ≠ r → coeff s1 m c = coeff s m c := by
    intro m c hm
    rw [hs1def]
    exact coeff_multiply_ne s _ r m c (Ne.symm hm)
  have hwf1 : ∀ m, m < n → (getRow s1 m).normal_vector.length = dim := by
    intro m hm
    by_cases hmr : m = r
    · rw [hmr, hs1def, getRow_multiply_self s _ r hrs]
      show (times_scalar (getRow s r).normal_vector _).length = dim
      rw [times_scalar, List.length_map]
      exact inv2.wf r hrn
    · rw [hs1def, getRow_multiply_ne s _ r m (Ne.symm hmr)]
      exact inv2.wf m hm
  have hs2def : s2 = clear_above_go s1 r cs[r] r := rfl
  have hrow_ge2 : ∀ m, r ≤ m → getRow s2 m = getRow s1 m := by
    intro m hm
    rw [hs2def]
    exact getRow_clear_above_ge s1 r cs[r] r m (le_refl r) hm
  have hrow_lt2 : ∀ m, m < r → getRow s2 m =
      combined_row (getRow s1 r) (-(coeff s1 m cs[r])) (getRow s1 m) := by
    intro m hm
    rw [hs2def]
    exact getRow_clear_above_lt s1 r cs[r] r m (le_refl r) hm
      (by rw [hs1len]; omega)
  have hc2ge : ∀ m c, r ≤ m → coeff s2 m c = coeff s1 m c := by
    intro m c hm
    unfold coeff
    rw [hrow_ge2 m hm]
  have hc2lt : ∀ m c, m < r →
      coeff s2 m c = -(coeff s1 m cs[r]) * coeff s1 r c + coeff s1 m c := by
    intro m c hm
    show (getRow s2 m).normal_vector.getD c 0 = _
    rw [hrow_lt2 m hm]
    exact combined_row_coeff _ _ _ _ (by rw [hwf1 r hrn, hwf1 m (by omega)])
  refine ⟨?_, ?_, ?_, ?_, ?_, ?_, ?_, ?_⟩
  · rw [hs2eq, clear_coefficients_above_length, hs1len]
  · rw [hs2eq, clear_coefficients_above_dimension, hs1dim]
  · intro m hm
    by_cases hmr : r ≤ m
    · rw [hrow_ge2 m hmr]
      exact hwf1 m hm
    · rw [hrow_lt2 m (by omega), combined_row_length, hwf1 r hrn, hwf1 m hm]
      simp
  · -- below
    intro r' h k hk
    by_cases hkr : r ≤ k
    · rw [hc2ge k _ hkr]
      by_cases hkr2 : k = r
      · rw [hkr2, hc1self]
        rw [show coeff s r cs[r'] = 0 from inv2.below r' h r (by omega)]
        ring
      · rw [hc1ne k _ hkr2]
        exact inv2.below r' h k hk
    · rw [hc2lt k _ (by omega), hc1self, hc1ne k cs[r] (by omega),
        hc1ne k cs[r'] (by omega)]
      rw [show coeff s r cs[r'] = 0 from inv2.below r' h r (by omega)]
      rw [inv2.below r' h k hk]
      ring
  · -- pre0
    intro r' h c hc
    by_cases hge : r ≤ r'
    · rw [hc2ge r' c hge]
      by_cases heq2 : r' = r
      · have e3 : cs[r'] = cs[r] := by
          have e1 : cs[r']? = cs[r]? := by rw [heq2]
          rw [List.getElem?_eq_getElem h, List.getElem?_eq_getElem hr] at e1
          exact Option.some_injective _ e1
        have hcr : c < cs[r] := e3 ▸ hc
        rw [heq2, hc1self, show coeff s r c = 0 from inv2.pre0 r hr c hcr]
        ring
      · rw [hc1ne r' c heq2]
        exact inv2.pre0 r' h c hc
    · have hlt2 : cs[r'] < cs[r] :=
        List.pairwise_iff_getElem.mp hsorted r' r h hr (by omega)
      have hcc : c < cs[r] := by omega
      rw [hc2lt r' c (by omega), hc1self, hc1ne r' cs[r] (by omega),
        hc1ne r' c (by omega)]
      rw [show coeff s r c = 0 from inv2.pre0 r hr c hcc,
        show coeff s r' c = 0 from inv2.pre0 r' h c hc]
      ring
  · -- trail0
    intro r' hge c
    have hgt : r < r' := by omega
    rw [hc2ge r' c (by omega), hc1ne r' c (by omega)]
    exact inv2.trail0 r' hge c
  · -- unproc
    intro r' h hlt
    rw [hc2lt r' _ hlt, hc1self, hc1ne r' cs[r] (by omega),
      hc1ne r' cs[r'] (by omega)]
    rw [show coeff s r cs[r'] = 0 from inv2.below r' h r hlt]
    rw [inv2.unproc r' h (by omega)]
    ring
  · -- scaled
    intro r' h hge
    by_cases heq2 : r' = r
    · have e3 : cs[r'] = cs[r] := by
        have e1 : cs[r']? = cs[r]? := by rw [heq2]
        rw [List.getElem?_eq_getElem h, List.getElem?_eq_getElem hr] at e1
        exact Option.some_injective _ e1
      rw [e3, heq2, hc2ge r _ (le_refl r), hc1self, one_div,
        inv_mul_cancel₀ hbne]
    · rw [hc2ge r' _ (by omega), hc1ne r' _ heq2]
      exact inv2.scaled r' h (by omega)

theorem rref_go_inv (n dim : ℕ) (cs : List ℕ) (T : LinearSystem)
    (hp : cs.length ≤ n) (hsorted : List.Pairwise (· < ·) cs)
    (hTB : ∀ (r' : ℕ), (h : r' < cs.length) →
      is_near_zero (coeff T r' cs[r']) = false)
    (hPlt : ∀ (r : ℕ), (h : r < cs.length) →
      (indices_of_first_nonzero_terms_in_each_row T).getD r (-1) =
        (cs[r] : ℤ))
    (hPge : ∀ r, cs.length ≤ r →
      (indices_of_first_nonzero_terms_in_each_row T).getD r (-1) = -1) :
    ∀ (cnt : ℕ) (s : LinearSystem),
      RrefInv n dim cs T s cnt →
      RrefInv n dim cs T
        (rref_go (indices_of_first_nonzero_terms_in_each_row T) s cnt) 0 := by
  intro cnt
  induction cnt with
  | zero => intro s inv2; exact inv2
  | succ r ih =>
    intro s inv2
    simp only [rref_go]
    by_cases hr : r < cs.length
    · rw [hPlt r hr]
      rw [if_neg (by exact not_lt.mpr (Int.natCast_nonneg _))]
      rw [Int.toNat_natCast]
      apply ih
      exact rref_step n dim cs T s r hp hsorted hTB hr inv2
    · rw [hPge r (by omega)]
      rw [if_pos (by decide)]
      apply ih
      refine ⟨inv2.hn, inv2.hdim, inv2.wf, inv2.below, inv2.pre0,
        inv2.trail0, ?_, ?_⟩
      · intro r' h hlt
        exact inv2.unproc r' h (by omega)
      · intro r' h hge
        exact inv2.scaled r' h (by omega)

theorem rref_final_fni_pivot (n dim : ℕ) (cs : List ℕ) (T R : LinearSystem)
    (hcsdim : ∀ (r : ℕ), (h : r < cs.length) → cs[r] < dim)
    (inv2 : RrefInv n dim cs T R 0) (hp : cs.length ≤ n) :
    ∀ (r : ℕ), (h : r < cs.length) →
      first_nonzero_index (getRow R r).normal_vector = .ok cs[r] := by
  intro r h
  apply fni_of_spec
  · rw [inv2.wf r (by omega)]
    exact hcsdim r h
  · intro c hc
    have h0 := inv2.pre0 r h c hc
    unfold coeff at h0
    rw [h0]
    exact is_near_zero_zero
  · have h0 := inv2.scaled r h (by omega)
    unfold coeff at h0
    rw [h0]
    decide

theorem rref_final_fni_trailing (n dim : ℕ) (cs : List ℕ)
    (T R : LinearSystem) (inv2 : RrefInv n dim cs T R 0) :
    ∀ r, cs.length ≤ r → r < n →
      first_nonzero_index (getRow R r).normal_vector =
        .error NO_NONZERO_ELTS_FOUND_MSG := by
  intro r hr hrn
  apply fni_all_near_zero
  rw [List.all_eq_true]
  intro x hx
  obtain ⟨c, hc⟩ := List.getElem?_of_mem hx
  have hval : coeff R r c = x := by
    unfold coeff
    rw [List.getD_eq_getElem?_getD, hc]
    rfl
  rw [← hval, inv2.trail0 r hr c]
  exact is_near_zero_zero

theorem tfinal_getD_pivot (n dim : ℕ) (T : LinearSystem) (j : ℕ)
    (cs : List ℕ) (inv : TFInv n dim T n j cs)
    (hchk : allCoeffsZeroOrBig T = true) :
    ∀ (r : ℕ), (h : r < cs.length) →
      (indices_of_first_nonzero_terms_in_each_row T).getD r (-1) =
        (cs[r] : ℤ) := by
  intro r h
  have hrn : r < n := by have := inv.hp; omega
  rw [indices_getD_eq T r (-1) (by rw [inv.hn]; omega)]
  unfold pivotOf
  rw [← getRow_eq_getElem T r (by rw [inv.hn]; omega)]
  rw [tfinal_fni_pivot n dim T j cs inv hchk r h]

theorem tfinal_getD_trailing (n dim : ℕ) (T : LinearSystem) (j : ℕ)
    (cs : List ℕ) (inv : TFInv n dim T n j cs)
    (hchk : allCoeffsZeroOrBig T = true) :
    ∀ r, cs.length ≤ r →
      (indices_of_first_nonzero_terms_in_each_row T).getD r (-1) = -1 := by
  intro r hge
  by_cases hrn : r < n
  · rw [indices_getD_eq T r (-1) (by rw [inv.hn]; omega)]
    unfold pivotOf
    rw [← getRow_eq_getElem T r (by rw [inv.hn]; omega)]
    rw [tfinal_fni_trailing n dim T j cs inv hchk r hge hrn]
  · rw [List.getD_eq_getElem?_getD,
      List.getElem?_eq_none (by rw [indices_length, inv.hn]; omega)]
    rfl

theorem rref_initial (n dim : ℕ) (T : LinearSystem) (j : ℕ) (cs : List ℕ)
    (inv : TFInv n dim T n j cs) (hchk : allCoeffsZeroOrBig T = true) :
    RrefInv n dim cs T T n :=
  ⟨inv.hn, inv.hdim, inv.wf, inv.hC,
   tfinal_pre_zero n dim T j cs inv hchk,
   tfinal_trailing_zero n dim T j cs inv hchk,
   fun _ _ _ => rfl,
   fun r h hge => absurd hge (by have := inv.hp; omega)⟩

theorem watched_main (s T : LinearSystem)
    (hW : wellFormed s = true)
    (hw : compute_triangular_form_watched s = some T) :
    ∃ j cs, TFInv s.planes.length s.dimension T s.planes.length j cs ∧
      allCoeffsZeroOrBig T = true ∧ T = compute_triangular_form s := by
  have hproj := tf_rows_watched_proj s.dimension s.planes.length 0 0 s T hw
  have hinv0 : TFInv s.planes.length s.dimension s 0 0 [] :=
    ⟨rfl, rfl, fun r hr => wellFormed_getRow_len hW r hr,
     by simp, by omega, fun h => absurd h (by simp),
     List.Pairwise.nil, fun c hc => absurd hc (List.not_mem_nil c),
     fun r h => absurd h (by simp), fun r h => absurd h (by simp),
     fun r h => absurd h (by simp), fun k hk c hc => absurd hc (by omega)⟩
  obtain ⟨j, cs, inv, hchk⟩ := tf_rows_watched_inv s.planes.length
    s.dimension s.planes.length 0 0 s [] T (by omega) (by omega) hinv0 hw
  exact ⟨j, cs, inv, hchk, hproj⟩

theorem watched_structure_full (s T : LinearSystem)
    (hW : wellFormed s = true)
    (hw : compute_triangular_form_watched s = some T) :
    pivotStructureOK (indices_of_first_nonzero_terms_in_each_row
      (compute_triangular_form s)) = true ∧
    pivotStructureOK (indices_of_first_nonzero_terms_in_each_row
      (compute_rref s)) = true := by
  obtain ⟨j, cs, inv, hchk, hTeq⟩ := watched_main s T hW hw
  have hOK_T : pivotStructureOK
      (indices_of_first_nonzero_terms_in_each_row T) = true :=
    watched_structureOK s.planes.length s.dimension T j cs inv hchk
  have hcsdim : ∀ (r : ℕ), (h : r < cs.length) → cs[r] < s.dimension := by
    intro r h
    have h1 := inv.hlt cs[r] (List.getElem_mem h)
    have h2 := inv.hjdim
    omega
  have hinit : RrefInv s.planes.length s.dimension cs T T T.planes.length := by
    rw [inv.hn]
    exact rref_initial s.planes.length s.dimension T j cs inv hchk
  have hfinal := rref_go_inv s.planes.length s.dimension cs T inv.hp
    inv.sorted inv.hB
    (tfinal_getD_pivot s.planes.length s.dimension T j cs inv hchk)
    (tfinal_getD_trailing s.planes.length s.dimension T j cs inv hchk)
    T.planes.length T hinit
  have hrref : compute_rref s =
      rref_go (indices_of_first_nonzero_terms_in_each_row T) T
        T.planes.length := by
    rw [hTeq]
    rfl
  constructor
  · rw [← hTeq]
    exact hOK_T
  · rw [hrref]
    exact structureOK_of_rows _ s.planes.length cs hfinal.hn inv.hp
      inv.sorted
      (rref_final_fni_pivot s.planes.length s.dimension cs T _ hcsdim
        hfinal inv.hp)
      (rref_final_fni_trailing s.planes.length s.dimension cs T _ hfinal)

/-- C10 (counterexample): after triangularizing `pathologicalSystem`, the
pivot columns of the pivot rows do not strictly increase and a pivotless
row is followed by a pivot row (pivot indices `[1, -1, 0]`), in the
triangular form and in the reduced form alike; consequently the
early-break basepoint extraction differs from the scan of all rows. -/
theorem claim_C10_counterexample :
    pivotStructureOK (indices_of_first_nonzero_terms_in_each_row
      (compute_triangular_form pathologicalSystem)) = false ∧
    pivotStructureOK (indices_of_first_nonzero_terms_in_each_row
      (compute_rref pathologicalSystem)) = false ∧
    extract_basepoint_for_parametrization (compute_rref pathologicalSystem) ≠
      extract_basepoint_full (compute_rref pathologicalSystem) := by
  decide

/-- C10 (amended): for every well-formed system on which the forward pass
never meets a near-zero nonzero coefficient at a row boundary (the watched
pass completes), the echelon invariant holds: pivot columns of the pivot
rows strictly increase from top to bottom and every pivotless row comes
after every pivot row, both in `compute_triangular_form`'s output and in
`compute_rref`'s output, and therefore the early `break` in the basepoint
and direction-vector extraction loops is equivalent to examining all
rows.  The unconditional claim is refuted by
`claim_C10_counterexample`. -/
theorem claim_C10_amended (s : LinearSystem)
    (hW : wellFormed s = true)
    (hwatch : (compute_triangular_form_watched s).isSome = true) :
    pivotStructureOK (indices_of_first_nonzero_terms_in_each_row
      (compute_triangular_form s)) = true ∧
    pivotStructureOK (indices_of_first_nonzero_terms_in_each_row
      (compute_rref s)) = true ∧
    extract_basepoint_for_parametrization (compute_rref s) =
      extract_basepoint_full (compute_rref s) ∧
    extract_direction_vectors_for_parametrization (compute_rref s) =
      extract_direction_vectors_full (compute_rref s) := by
  obtain ⟨T, hT⟩ := Option.isSome_iff_exists.mp hwatch
  obtain ⟨h1, h2⟩ := watched_structure_full s T hW hT
  obtain ⟨h3, h4⟩ := extract_break_eq_full (compute_rref s) h2
  exact ⟨h1, h2, h3, h4⟩

/-- C10 (witness): the system `{x+y=3, y=2}` is well-formed, its watched
forward pass completes, and the amended theorem yields the echelon shape
of its reduced form. -/
theorem claim_C10_amended_witness :
    wellFormed (⟨[⟨[1, 1], 3⟩, ⟨[0, 1], 2⟩], 2⟩ : LinearSystem) = true ∧
    (compute_triangular_form_watched
      ⟨[⟨[1, 1], 3⟩, ⟨[0, 1], 2⟩], 2⟩).isSome = true ∧
    pivotStructureOK (indices_of_first_nonzero_terms_in_each_row
      (compute_rref ⟨[⟨[1, 1], 3⟩, ⟨[0, 1], 2⟩], 2⟩)) = true :=
  ⟨by decide, by decide,
   (claim_C10_amended ⟨[⟨[1, 1], 3⟩, ⟨[0, 1], 2⟩], 2⟩ (by decide)
     (by decide)).2.1⟩
